import Mathlib

/-! EdgeNode: cache writer, expiration list and origin connection

Three embeddings, definitions first and theorems after them:

* `caches`: `MemoryWriter` of `internal/caches/writer_memory.go` and the part of
  `MemoryStorage` that the writer touches, with the write / commit / discard protocol,
  for one writer and for several writers over one store;
* `expires`: the expiration list of `internal/utils/expires`, modelled from its
  specification and its test;
* `nodes`: `TCPListener.connectOrigin` of `internal/nodes/listener_tcp.go`, with the
  origin scheduler and the dialer as oracles and a panic as the result `none`.

Modelling conventions of `caches`

* Go objects reached through pointers live in an explicit heap: `World.heap` maps the
  address of a `*MemoryItem` to the item stored there, and `valuesMap` holds addresses,
  exactly as the Go map holds `*MemoryItem` values.  A writer keeps the address of its
  own item, so aliasing between the writer and the store is visible.
* `int64` fields are `Int`s; every `+=` goes through `wrapInt64`.
* A nil-pointer dereference (a Go panic) is the `none` result of a method.
* `sync.Once` is a boolean flag; the completion callback `endFunc` is identified by a
  number and each invocation is appended to `World.endCalls`.
* The methods are run one after another by one caller, so `locker.Lock()` /
  `locker.Unlock()` always succeed and leave no trace in the state.
-/

namespace caches

/-- One octet of header or body data (`byte`). -/
abbrev Byte := Fin 256

/-- Two's-complement wrap-around of Go's `int64` arithmetic. -/
def wrapInt64 (x : Int) : Int := (x + 9223372036854775808) % 18446744073709551616 - 9223372036854775808

/-- Largest `int64`. -/
def maxInt64 : Int := 9223372036854775807

/-- The non-nil `error` values returned by the writer. -/
inductive CacheError where
  | ErrEntityTooLarge
  | notSupported
deriving DecidableEq, Repr

/-- The fields of `MemoryItem` used by the writer (the type is declared elsewhere in the
package). A Go composite literal leaves the unnamed fields at their zero value. -/
structure MemoryItem where
  ExpiresAt : Int
  HeaderValue : List Byte
  BodyValue : List Byte
  Status : Int
  IsDone : Bool
  ModifiedAt : Int
deriving DecidableEq, Repr

/-- The fields of `MemoryStorage` used by the writer (the type is declared elsewhere in
the package): `valuesMap` from 64-bit hash to item address, whether `parentStorage` is
non-nil, the buffered channel `dirtyChan` as its queued keys (oldest first) with its
capacity, and the ignore set. -/
structure MemoryStorage where
  valuesMap : Nat → Option Nat
  parentStorage : Bool
  dirtyChan : List String
  dirtyCap : Nat
  ignoreKeys : List String

/-- Modelled from the spec: `MemoryStorage.IgnoreKey` is not among the sources; the spec
says it "marks a key so that subsequent cache-write attempts for it are skipped". The
ignore set is kept as the list of keys handed to `IgnoreKey`, in call order: membership
in the list is membership in the set, and every call is visible. -/
def MemoryStorage.IgnoreKey (st : MemoryStorage) (key : String) : MemoryStorage :=
  { st with ignoreKeys := st.ignoreKeys ++ [key] }

/-- The statement `select { case dirtyChan <- key: default: }` on a buffered channel
with nobody waiting to receive: the key is queued when there is room, dropped otherwise. -/
def MemoryStorage.trySendDirty (st : MemoryStorage) (key : String) : MemoryStorage :=
  if st.dirtyChan.length < st.dirtyCap then { st with dirtyChan := st.dirtyChan ++ [key] } else st

/-- The `MemoryWriter` struct. `item` is the address of the writer's `MemoryItem`
(`none` is the nil pointer), `endFunc` names the completion callback, `once` is true
when the `sync.Once` has fired. The `storage` pointer is the one store of the `World`. -/
structure MemoryWriter where
  key : String
  expiredAt : Int
  headerSize : Int
  bodySize : Int
  status : Int
  isDirty : Bool
  maxSize : Int
  hash : Nat
  item : Option Nat
  endFunc : Nat
  once : Bool
deriving DecidableEq, Repr

/-- Everything the writer's methods can read or change besides the writer itself. -/
structure World where
  storage : MemoryStorage
  heap : Nat → MemoryItem
  nextAddr : Nat
  endCalls : List Nat

/-- The entry reachable through the store's mapping at a fingerprint. -/
def World.entryAt (σ : World) (h : Nat) : Option MemoryItem :=
  (σ.storage.valuesMap h).map σ.heap

/-- Method `calculateHash`: the key's fingerprint, by the external `xxhash.Sum64String`. -/
def calculateHash (Sum64String : String → Nat) (key : String) : Nat := Sum64String key

/-- The deferred statement of `Close` and `Discard`, which runs `endFunc` through the
writer's `sync.Once`: the callback is invoked only if the guard has not fired yet. -/
def onceDo (w : MemoryWriter) (σ : World) : MemoryWriter × World :=
  if w.once then (w, σ)
  else ({ w with once := true }, { σ with endCalls := σ.endCalls ++ [w.endFunc] })

/-- Function `NewMemoryWriter`: allocates the item at a fresh address; `now` is `time.Now().Unix()`. -/
def NewMemoryWriter (Sum64String : String → Nat) (now : Int) (σ : World) (key : String)
    (expiredAt : Int) (status : Int) (isDirty : Bool) (maxSize : Int) (endFunc : Nat) :
    MemoryWriter × World :=
  let p := σ.nextAddr
  let it : MemoryItem :=
    { ExpiresAt := expiredAt, ModifiedAt := now, Status := status,
      HeaderValue := [], BodyValue := [], IsDone := false }
  ({ key := key, expiredAt := expiredAt, headerSize := 0, bodySize := 0, status := status,
     isDirty := isDirty, maxSize := maxSize, hash := calculateHash Sum64String key,
     item := some p, endFunc := endFunc, once := false },
   { σ with heap := Function.update σ.heap p it, nextAddr := p + 1 })

/-- Method `MemoryWriter.WriteHeader`: result `(n, err)`, the writer and the world afterwards. -/
def WriteHeader (w : MemoryWriter) (σ : World) (data : List Byte) :
    Option ((Nat × Option CacheError) × MemoryWriter × World) :=
  match w.item with
  | none => none
  | some p =>
    let it := σ.heap p
    some ((data.length, none),
      { w with headerSize := wrapInt64 (w.headerSize + data.length) },
      { σ with heap := Function.update σ.heap p { it with HeaderValue := it.HeaderValue ++ data } })

/-- Method `MemoryWriter.Write`: result `(n, err)`, the writer and the world afterwards. -/
def Write (w : MemoryWriter) (σ : World) (data : List Byte) :
    Option ((Nat × Option CacheError) × MemoryWriter × World) :=
  match w.item with
  | none => none
  | some p =>
    let it := σ.heap p
    let w1 : MemoryWriter := { w with bodySize := wrapInt64 (w.bodySize + data.length) }
    let σ1 : World :=
      { σ with heap := Function.update σ.heap p { it with BodyValue := it.BodyValue ++ data } }
    if w1.maxSize > 0 ∧ w1.bodySize > w1.maxSize then
      some ((data.length, some CacheError.ErrEntityTooLarge), w1,
        { σ1 with storage := σ1.storage.IgnoreKey w1.key })
    else
      some ((data.length, none), w1, σ1)

/-- Method `MemoryWriter.WriteAt`. -/
def WriteAt (w : MemoryWriter) (σ : World) (_offset : Int) (_b : List Byte) :
    Option CacheError × MemoryWriter × World :=
  (some CacheError.notSupported, w, σ)

/-- Method `MemoryWriter.HeaderSize`. -/
def HeaderSize (w : MemoryWriter) : Int := w.headerSize

/-- Method `MemoryWriter.BodySize`. -/
def BodySize (w : MemoryWriter) : Int := w.bodySize

/-- Method `MemoryWriter.Close`; the deferred `once.Do` runs last. -/
def Close (w : MemoryWriter) (σ : World) : Option CacheError × MemoryWriter × World :=
  match w.item with
  | none => (none, onceDo w σ)
  | some p =>
    let it := σ.heap p
    let heap1 := Function.update σ.heap p { it with IsDone := true }
    let st := σ.storage
    let st1 : MemoryStorage := { st with valuesMap := Function.update st.valuesMap w.hash (some p) }
    let st2 : MemoryStorage :=
      if w.isDirty then
        if st1.parentStorage then st1.trySendDirty w.key else st1
      else st1
    (none, onceDo w { σ with storage := st2, heap := heap1 })

/-- Method `MemoryWriter.Discard`; the deferred `once.Do` runs last. -/
def Discard (w : MemoryWriter) (σ : World) : Option CacheError × MemoryWriter × World :=
  let st := σ.storage
  let st1 : MemoryStorage := { st with valuesMap := Function.update st.valuesMap w.hash none }
  (none, onceDo w { σ with storage := st1 })

/-- Method `MemoryWriter.Key`. -/
def Key (w : MemoryWriter) : String := w.key

/-- Method `MemoryWriter.ExpiredAt`. -/
def ExpiredAt (w : MemoryWriter) : Int := w.expiredAt

/-- One method call on a writer, with its arguments. -/
inductive Call where
  | writeHeader (data : List Byte)
  | write (data : List Byte)
  | writeAt (offset : Int) (b : List Byte)
  | close
  | discard
deriving DecidableEq, Repr

/-- The calls that end the writer's lifecycle: `Close` and `Discard`. -/
def Call.isEnd : Call → Bool
  | .close => true
  | .discard => true
  | _ => false

/-- The calls `WriteHeader` and `Write`. -/
def Call.isWrite : Call → Bool
  | .writeHeader _ => true
  | .write _ => true
  | _ => false

/-- Performs one call, dropping its return value; `none` when the call panics. -/
def Call.exec (c : Call) (s : MemoryWriter × World) : Option (MemoryWriter × World) :=
  match c with
  | .writeHeader data => (WriteHeader s.1 s.2 data).map Prod.snd
  | .write data => (Write s.1 s.2 data).map Prod.snd
  | .writeAt offset b => some (WriteAt s.1 s.2 offset b).2
  | .close => some (Close s.1 s.2).2
  | .discard => some (Discard s.1 s.2).2

/-- Performs the calls from left to right. -/
def runCalls : List Call → MemoryWriter × World → Option (MemoryWriter × World)
  | [], s => some s
  | c :: cs, s => (c.exec s).bind (runCalls cs)

/-- The `WriteHeader` payloads of a call sequence, concatenated in order. -/
def headerBytes : List Call → List Byte
  | [] => []
  | .writeHeader data :: cs => data ++ headerBytes cs
  | _ :: cs => headerBytes cs

/-- The `Write` payloads of a call sequence, concatenated in order. -/
def bodyBytes : List Call → List Byte
  | [] => []
  | .write data :: cs => data ++ bodyBytes cs
  | _ :: cs => bodyBytes cs

/-- A store with nothing cached, no parent store and a dirty queue of the given capacity. -/
def emptyStorage (cap : Nat) (parent : Bool) : MemoryStorage :=
  { valuesMap := fun _ => none, parentStorage := parent, dirtyChan := [], dirtyCap := cap,
    ignoreKeys := [] }

/-- The zero `MemoryItem`. -/
def zeroItem : MemoryItem :=
  { ExpiresAt := 0, HeaderValue := [], BodyValue := [], Status := 0, IsDone := false,
    ModifiedAt := 0 }

/-- A world with an empty store and nothing allocated. -/
def emptyWorld (cap : Nat) (parent : Bool) : World :=
  { storage := emptyStorage cap parent, heap := fun _ => zeroItem, nextAddr := 0, endCalls := [] }

/-- Every address held by the store's mapping has been allocated; a freshly allocated
item is therefore not yet reachable from the mapping. -/
def World.Allocated (σ : World) : Prop :=
  ∀ h p, σ.storage.valuesMap h = some p → p < σ.nextAddr

/-- The state reached from `s` when the writer's size counters have become `hs` and `bs`,
the ignore set has become `ik`, and `hd` and `bd` have been appended to the header and
body bytes of the item at address `p`; nothing else differs from `s`. -/
def written (s : MemoryWriter × World) (p : Nat) (hs bs : Int) (ik : List String)
    (hd bd : List Byte) : MemoryWriter × World :=
  ({ s.1 with headerSize := hs, bodySize := bs },
   { s.2 with
      storage := { s.2.storage with ignoreKeys := ik },
      heap := Function.update s.2.heap p
        { s.2.heap p with
          HeaderValue := (s.2.heap p).HeaderValue ++ hd,
          BodyValue := (s.2.heap p).BodyValue ++ bd } })

/-- A store that already caches two entries: one under fingerprint 1 (the length of the
key "a") at address 0 and one under fingerprint 5 at address 1; it has a parent store and
a dirty queue with room for two keys. -/
def sampleWorld : World :=
  { storage :=
      { valuesMap := fun h => if h = 1 then some 0 else if h = 5 then some 1 else none,
        parentStorage := true, dirtyChan := [], dirtyCap := 2, ignoreKeys := [] },
    heap := fun a =>
      if a = 0 then
        { ExpiresAt := 50, HeaderValue := [72], BodyValue := [79, 76, 68], Status := 404,
          IsDone := true, ModifiedAt := 10 }
      else if a = 1 then
        { ExpiresAt := 60, HeaderValue := [], BodyValue := [5, 5], Status := 200,
          IsDone := true, ModifiedAt := 20 }
      else zeroItem,
    nextAddr := 2, endCalls := [] }

/-- A new writer for key "a" on `sampleWorld`: dirty, with `maxSize = 10`, expiring at
105, with status 200 and callback 7; its item is allocated at address 2. -/
def sampleWriter : MemoryWriter × World :=
  NewMemoryWriter String.length 100 sampleWorld "a" 105 200 true 10 7

/-- A `Close` made right after a call that returned `r`. -/
def thenClose (r : Option CacheError × MemoryWriter × World) :
    Option CacheError × MemoryWriter × World :=
  Close r.2.1 r.2.2

/-- A `Discard` made right after a call that returned `r`. -/
def thenDiscard (r : Option CacheError × MemoryWriter × World) :
    Option CacheError × MemoryWriter × World :=
  Discard r.2.1 r.2.2

/-- Several writers over one store: the writers made so far, numbered in the order in
which they were made, and the world they share. -/
structure System where
  writers : Nat → Option MemoryWriter
  count : Nat
  world : World

/-- One step of a program that uses the store: making a writer with `NewMemoryWriter`
(`now` is the clock reading at that moment), or one method call on writer number `i`. -/
inductive Event where
  | create (key : String) (expiredAt : Int) (status : Int) (isDirty : Bool) (maxSize : Int)
      (endFunc : Nat) (now : Int)
  | call (i : Nat) (c : Call)
deriving DecidableEq, Repr

/-- Performs one event; `none` when the call panics or names a writer that was never made. -/
def Event.exec (Sum64String : String → Nat) (e : Event) (S : System) : Option System :=
  match e with
  | .create key expiredAt status isDirty maxSize endFunc now =>
    some
      { writers := Function.update S.writers S.count
          (some (NewMemoryWriter Sum64String now S.world key expiredAt status isDirty maxSize
            endFunc).1),
        count := S.count + 1,
        world := (NewMemoryWriter Sum64String now S.world key expiredAt status isDirty maxSize
          endFunc).2 }
  | .call i c =>
    match S.writers i with
    | none => none
    | some w =>
      (c.exec (w, S.world)).map fun r =>
        { writers := Function.update S.writers i (some r.1), count := S.count, world := r.2 }

/-- Performs the events from left to right. -/
def runEvents (Sum64String : String → Nat) : List Event → System → Option System
  | [], S => some S
  | e :: es, S => (e.exec Sum64String S).bind (runEvents Sum64String es)

/-- Whether every call in the events names a writer that has been made by then, `n`
writers existing at the start. -/
def validEvents : List Event → Nat → Bool
  | [], _ => true
  | .create _ _ _ _ _ _ _ :: es, n => validEvents es (n + 1)
  | .call i _ :: es, n => decide (i < n) && validEvents es n

/-- Whether the event is a `Close` on writer number `i`. -/
def Event.closes (i : Nat) : Event → Bool
  | .call j .close => decide (j = i)
  | _ => false

/-- Whether the events contain a `Close` on writer number `i`. -/
def closedIn (es : List Event) (i : Nat) : Bool := es.any (Event.closes i)

/-- The calls made on writer number `i`, in order. -/
def callsOn (i : Nat) : List Event → List Call
  | [] => []
  | .call j c :: es => if j = i then c :: callsOn i es else callsOn i es
  | _ :: es => callsOn i es

/-- What a call does to the writer's own item. -/
def Call.onItem : Call → MemoryItem → MemoryItem
  | .writeHeader data, it => { it with HeaderValue := it.HeaderValue ++ data }
  | .write data, it => { it with BodyValue := it.BodyValue ++ data }
  | .close, it => { it with IsDone := true }
  | _, it => it

/-- What a call by a writer whose item is at `p` does to the mapping's slot at the
writer's hash. -/
def Call.onSlot (p : Nat) : Call → Option Nat → Option Nat
  | .close, _ => some p
  | .discard, _ => none
  | _, v => v

/-- A system with no writers yet. -/
def System.start (σ : World) : System :=
  { writers := fun _ => none, count := 0, world := σ }

/-- The facts that hold of a system throughout a run: `base` is the first address the
run allocates and `C` tells which writers have been closed. Writer number `i` owns the
item at `base + i`; every address in the mapping is allocated and holds a done item;
the item of a writer that has not been closed is not done. -/
def System.Inv (S : System) (base : Nat) (C : Nat → Bool) : Prop :=
  S.world.nextAddr = base + S.count ∧
  (∀ i, i < S.count → ∃ w, S.writers i = some w ∧ w.item = some (base + i)) ∧
  (∀ i w, S.writers i = some w → i < S.count) ∧
  (∀ h p, S.world.storage.valuesMap h = some p →
    p < base + S.count ∧ (S.world.heap p).IsDone = true) ∧
  (∀ i, i < S.count → C i = false → (S.world.heap (base + i)).IsDone = false)

/-- The number of writers after an event. -/
def Event.countAfter (e : Event) (n : Nat) : Nat :=
  match e with
  | .create _ _ _ _ _ _ _ => n + 1
  | .call _ _ => n

/-- Whether the events are all method calls on writers numbered below `n`. -/
def callsOnly (n : Nat) : List Event → Bool
  | [] => true
  | .call i _ :: es => decide (i < n) && callsOnly n es
  | _ :: _ => false

/-- The writer's own item after the calls `cs`, by `Call.onItem`. -/
def itemAfter (cs : List Call) (it : MemoryItem) : MemoryItem :=
  cs.foldl (fun it c => c.onItem it) it

/-- The mapping's slot at the hash of a writer whose item is at `p`, after the writer's
calls `cs`, by `Call.onSlot`. -/
def slotAfter (p : Nat) (cs : List Call) (v : Option Nat) : Option Nat :=
  cs.foldl (fun v c => c.onSlot p v) v

/-- Writer number `i` of the system, for every `i` below the count, owns the item at
`base + i` and has hash `hashOf i`, and these hashes are pairwise distinct. -/
def System.Owns (S : System) (base : Nat) (hashOf : Nat → Nat) : Prop :=
  (∀ i, i < S.count → ∃ w, S.writers i = some w ∧ w.item = some (base + i) ∧ w.hash = hashOf i) ∧
  (∀ i j, i < S.count → j < S.count → hashOf i = hashOf j → i = j)

/-- The calls `WriteHeader`, `Write` and `Close`. -/
def Call.isWriteOrClose : Call → Bool
  | .writeHeader _ => true
  | .write _ => true
  | .close => true
  | _ => false

/-- The system right after two writers have been made, one after the other, on `σ`. -/
def twoWriters (Sum64String : String → Nat) (σ : World)
    (keyA : String) (expA stA : Int) (dirtyA : Bool) (maxA : Int) (endA : Nat) (nowA : Int)
    (keyB : String) (expB stB : Int) (dirtyB : Bool) (maxB : Int) (endB : Nat) (nowB : Int) :
    System :=
  { writers :=
      Function.update
        (Function.update (fun _ => none) 0
          (some (NewMemoryWriter Sum64String nowA σ keyA expA stA dirtyA maxA endA).1))
        1
        (some (NewMemoryWriter Sum64String nowB
          (NewMemoryWriter Sum64String nowA σ keyA expA stA dirtyA maxA endA).2
          keyB expB stB dirtyB maxB endB).1),
    count := 2,
    world :=
      (NewMemoryWriter Sum64String nowB
        (NewMemoryWriter Sum64String nowA σ keyA expA stA dirtyA maxA endA).2
        keyB expB stB dirtyB maxB endB).2 }

/-- Whether the event is a `WriteHeader`, `Write` or `Close` call. -/
def Event.isWriteOrClose : Event → Bool
  | .call _ c => c.isWriteOrClose
  | _ => false

end caches

/-! Expiration list: `internal/utils/expires` (only `list_test.go` is among the sources) -/

namespace expires

/-- Looks a key up in a Go map kept as a list of key-value pairs. -/
def assocGet {β : Type} : List (Int × β) → Int → Option β
  | [], _ => none
  | (k, v) :: m, j => if k = j then some v else assocGet m j

/-- Deletes a key from a Go map kept as a list of key-value pairs (`delete(m, j)`). -/
def assocDel {β : Type} (m : List (Int × β)) (j : Int) : List (Int × β) :=
  m.filter fun e => decide (e.1 ≠ j)

/-- Sets a key in a Go map kept as a list of key-value pairs (`m[k] = v`). -/
def assocPut {β : Type} (m : List (Int × β)) (k : Int) (v : β) : List (Int × β) :=
  assocDel m k ++ [(k, v)]

/-- Modelled from the spec: the Expiration List type is not among the sources (only its
test is, which reads the fields `itemsMap` and `expireMap`). The spec describes a primary
mapping from item id to expiration timestamp and a bucket index that groups item ids by
expiration timestamp. Each Go map is kept as a list of key-value pairs, so `len` of the
map is the length of the list. -/
structure ExpireList where
  itemsMap : List (Int × Int)
  expireMap : List (Int × List Int)
deriving DecidableEq, Repr

/-- Modelled from the spec: `NewList` is not among the sources; the test uses it as the
constructor of an empty list. -/
def NewList : ExpireList := { itemsMap := [], expireMap := [] }

/-- Modelled from the spec: `Remove` is not among the sources. The spec: "deletes the item
from both the primary mapping and its bucket, no-op if absent"; a bucket left without
items is dropped from the bucket index, as the spec's `len(bucket index) == 1` after
re-adding one id at a new time requires. -/
def Remove (l : ExpireList) (itemId : Int) : ExpireList :=
  match assocGet l.itemsMap itemId with
  | none => l
  | some expireAt =>
    { itemsMap := assocDel l.itemsMap itemId,
      expireMap :=
        match assocGet l.expireMap expireAt with
        | none => l.expireMap
        | some ids =>
          if ids.filter (fun i => decide (i ≠ itemId)) = [] then assocDel l.expireMap expireAt
          else assocPut l.expireMap expireAt (ids.filter fun i => decide (i ≠ itemId)) }

/-- Modelled from the spec: `Add` is not among the sources. The spec: "insert or
overwrite. Must remove any stale bucket membership before inserting the new one"; the
item is then put into the bucket of `expireAt`, which is created when absent, and the
primary mapping is set. -/
def Add (l : ExpireList) (itemId : Int) (expireAt : Int) : ExpireList :=
  { itemsMap := assocPut (Remove l itemId).itemsMap itemId expireAt,
    expireMap :=
      assocPut (Remove l itemId).expireMap expireAt
        (((assocGet (Remove l itemId).expireMap expireAt).getD []) ++ [itemId]) }

/-- The ids of the items whose expiration timestamp is at most `now`. -/
def expiredIds (l : ExpireList) (now : Int) : List Int :=
  (l.itemsMap.filter fun e => decide (e.2 ≤ now)).map Prod.fst

/-- Modelled from the spec: `GC` is not among the sources. The spec: "for every item whose
`expireAt <= now`, removes it from both structures and invokes `callback(itemId)`". The
result is the list afterwards and the ids the callback was invoked with, one entry per
invocation, in the order of the invocations. -/
def GC (l : ExpireList) (now : Int) : ExpireList × List Int :=
  ((expiredIds l now).foldl Remove l, expiredIds l now)

/-- Performs `Add` for each pair of item id and expiration timestamp, left to right. -/
def addAll (l : ExpireList) (adds : List (Int × Int)) : ExpireList :=
  adds.foldl (fun l a => Add l a.1 a.2) l

/-- Performs `Add` of one item id at each of the timestamps, left to right. -/
def addSame (l : ExpireList) (itemId : Int) (ts : List Int) : ExpireList :=
  ts.foldl (fun l t => Add l itemId t) l

/-- Whether item `itemId` is in the bucket of timestamp `t`. -/
def inBucket (em : List (Int × List Int)) (t : Int) (itemId : Int) : Prop :=
  ∃ ids, assocGet em t = some ids ∧ itemId ∈ ids

/-- The facts that hold of every list made by `NewList`, `Add`, `Remove` and `GC`: no key
occurs twice in either map, an item is in the bucket of `t` exactly when the primary
mapping gives it the timestamp `t`, and every bucket is non-empty and holds no item
twice. -/
def ExpireList.Inv (l : ExpireList) : Prop :=
  (l.itemsMap.map Prod.fst).Nodup ∧
  (l.expireMap.map Prod.fst).Nodup ∧
  (∀ itemId t, assocGet l.itemsMap itemId = some t ↔ inBucket l.expireMap t itemId) ∧
  (∀ t ids, assocGet l.expireMap t = some ids → ids ≠ [] ∧ ids.Nodup)

end expires

/-! TCP listener: `internal/nodes/listener_tcp.go` -/

namespace nodes

/-- What `connectOrigin` returns, `(conn, err)`, together with what it did on the way:
the state of the outside world afterwards, the number of `NextOrigin` calls it made, and
the messages it passed to `remotelogs.Error`. A nil `error` is `none`. -/
structure ConnectResult (Conn Env : Type) where
  conn : Conn
  err : Option String
  env : Env
  attempts : Nat
  logs : List String
deriving DecidableEq, Repr

/-- The loop `for i := 0; i < retries; i++` of `connectOrigin`, with `fuel = retries - i`
iterations left; `conn` and `err` are the named results as they stand. The external
`NextOrigin` and `OriginConnect` are oracles that read and change the outside world
`env`. `Addr origin` is the pointer `origin.Addr`: `none` when it is nil, otherwise its
`Host` and `PortRange`. The log line after a failed connect reads `origin.Addr.Host`
without a nil check, so the call panics there when `origin.Addr` is nil; a panic is the
result `none`. -/
def connectLoop {Config Origin Conn Env : Type}
    (NextOrigin : Config → Env → Option Origin × Env)
    (OriginConnect : Origin → String → Env → (Conn × Option String) × Env)
    (Addr : Origin → Option (String × String)) (reverseProxy : Config) (remoteAddr : String) :
    Nat → Conn → Option String → Env → Nat → List String → Option (ConnectResult Conn Env)
  | 0, conn, _, env, attempts, logs =>
    some { conn := conn, err := some "no origin can be used", env := env, attempts := attempts,
           logs := logs }
  | fuel + 1, conn, err, env, attempts, logs =>
    match NextOrigin reverseProxy env with
    | (none, env1) =>
      connectLoop NextOrigin OriginConnect Addr reverseProxy remoteAddr fuel conn err env1
        (attempts + 1) logs
    | (some origin, env1) =>
      match OriginConnect origin remoteAddr env1 with
      | ((conn1, some e), env2) =>
        match Addr origin with
        | none => none
        | some (host, portRange) =>
          connectLoop NextOrigin OriginConnect Addr reverseProxy remoteAddr fuel conn1 (some e)
            env2 (attempts + 1)
            (logs ++ ["unable to connect origin: " ++ host ++ ":" ++ portRange ++ ": " ++ e])
      | ((conn1, none), env2) =>
        some { conn := conn1, err := none, env := env2, attempts := attempts + 1, logs := logs }

/-- Method `TCPListener.connectOrigin`; `reverseProxy = none` is the nil config, `nilConn`
is the nil `net.Conn`, and the result `none` is a panic. -/
def connectOrigin {Config Origin Conn Env : Type}
    (NextOrigin : Config → Env → Option Origin × Env)
    (OriginConnect : Origin → String → Env → (Conn × Option String) × Env)
    (Addr : Origin → Option (String × String)) (nilConn : Conn)
    (reverseProxy : Option Config) (remoteAddr : String) (env : Env) :
    Option (ConnectResult Conn Env) :=
  match reverseProxy with
  | none =>
    some { conn := nilConn, err := some "no reverse proxy config", env := env, attempts := 0,
           logs := [] }
  | some cfg =>
    connectLoop NextOrigin OriginConnect Addr cfg remoteAddr 3 nilConn none env 0 []

/-- One attempt, in the words of the claim: ask `NextOrigin` for an origin and, when it
is non-nil, connect to it. The attempt succeeds with a connection when the origin is
non-nil and the connect returns a nil error; the second component is the outside world
after the attempt. -/
def attempt {Config Origin Conn Env : Type}
    (NextOrigin : Config → Env → Option Origin × Env)
    (OriginConnect : Origin → String → Env → (Conn × Option String) × Env)
    (reverseProxy : Config) (remoteAddr : String) (env : Env) : Option Conn × Env :=
  match NextOrigin reverseProxy env with
  | (none, env1) => (none, env1)
  | (some origin, env1) =>
    match OriginConnect origin remoteAddr env1 with
    | ((_, some _), env2) => (none, env2)
    | ((conn1, none), env2) => (some conn1, env2)

/-- The outside world after the first `k` attempts. -/
def envAfter {Config Origin Conn Env : Type}
    (NextOrigin : Config → Env → Option Origin × Env)
    (OriginConnect : Origin → String → Env → (Conn × Option String) × Env)
    (reverseProxy : Config) (remoteAddr : String) : Nat → Env → Env
  | 0, env => env
  | k + 1, env =>
    envAfter NextOrigin OriginConnect reverseProxy remoteAddr k
      (attempt NextOrigin OriginConnect reverseProxy remoteAddr env).2

/-- The outcome of attempt number `k + 1`: `some conn` when it succeeds. -/
def attemptAt {Config Origin Conn Env : Type}
    (NextOrigin : Config → Env → Option Origin × Env)
    (OriginConnect : Origin → String → Env → (Conn × Option String) × Env)
    (reverseProxy : Config) (remoteAddr : String) (k : Nat) (env : Env) : Option Conn :=
  (attempt NextOrigin OriginConnect reverseProxy remoteAddr
    (envAfter NextOrigin OriginConnect reverseProxy remoteAddr k env)).1

/-- A sample `NextOrigin`: the outside world is a counter of calls; the first call finds
no origin, later calls return the counter as the origin. -/
def sampleNextOrigin (_cfg : Unit) (env : Nat) : Option Nat × Nat :=
  (if env = 0 then none else some env, env + 1)

/-- A sample `OriginConnect`: origin 1 refuses the connection, every other origin
accepts and the connection is named after the origin. -/
def sampleOriginConnect (origin : Nat) (_remoteAddr : String) (env : Nat) :
    (Nat × Option String) × Nat :=
  (if origin = 1 then (0, some "refused") else (origin, none), env)

/-- Sample origins that all carry an address. -/
def sampleAddr (_origin : Nat) : Option (String × String) := some ("origin.example", "80")

/-- Sample origins of which origin 1 has a nil `Addr`. -/
def sampleAddrMissing (origin : Nat) : Option (String × String) :=
  if origin = 1 then none else some ("origin.example", "80")

end nodes

namespace caches

/-! ## Shared lemmas -/

theorem onceDo_fresh (w : MemoryWriter) (σ : World) (h : w.once = false) :
    onceDo w σ = ({ w with once := true }, { σ with endCalls := σ.endCalls ++ [w.endFunc] }) := by
  simp [onceDo, h]

theorem onceDo_fired (w : MemoryWriter) (σ : World) (h : w.once = true) :
    onceDo w σ = (w, σ) := by
  simp [onceDo, h]

/-- A call other than `Close` / `Discard` on a writer with a non-nil item returns and
touches neither the once-guard nor the callback log. -/
theorem exec_nonEnd (c : Call) (s : MemoryWriter × World) (p : Nat)
    (hc : c.isEnd = false) (hp : s.1.item = some p) :
    ∃ s', c.exec s = some s' ∧ s'.1.item = some p ∧ s'.1.once = s.1.once ∧
      s'.1.endFunc = s.1.endFunc ∧ s'.2.endCalls = s.2.endCalls := by
  cases c with
  | writeHeader data => simp [Call.exec, WriteHeader, hp]
  | write data =>
    simp only [Call.exec, Write, hp]
    split <;> simp [MemoryStorage.IgnoreKey]
  | writeAt offset b => simp [Call.exec, WriteAt, hp]
  | close => simp [Call.isEnd] at hc
  | discard => simp [Call.isEnd] at hc

/-- The first `Close` / `Discard` fires the once-guard and logs the callback once. -/
theorem exec_end_fresh (c : Call) (s : MemoryWriter × World)
    (hc : c.isEnd = true) (h : s.1.once = false) :
    ∃ s', c.exec s = some s' ∧ s'.1.item = s.1.item ∧ s'.1.once = true ∧
      s'.1.endFunc = s.1.endFunc ∧ s'.2.endCalls = s.2.endCalls ++ [s.1.endFunc] := by
  cases c with
  | writeHeader data => simp [Call.isEnd] at hc
  | write data => simp [Call.isEnd] at hc
  | writeAt offset b => simp [Call.isEnd] at hc
  | close =>
    simp only [Call.exec, Close]
    cases hi : s.1.item <;> simp [onceDo, h, hi]
  | discard => simp [Call.exec, Discard, onceDo, h]

/-- Once the guard has fired, no call logs the callback again. -/
theorem exec_fired (c : Call) (s : MemoryWriter × World) (p : Nat)
    (hp : s.1.item = some p) (h : s.1.once = true) :
    ∃ s', c.exec s = some s' ∧ s'.1.item = some p ∧ s'.1.once = true ∧
      s'.1.endFunc = s.1.endFunc ∧ s'.2.endCalls = s.2.endCalls := by
  cases c with
  | writeHeader data => simp [Call.exec, WriteHeader, hp, h]
  | write data =>
    simp only [Call.exec, Write, hp]
    split <;> simp [MemoryStorage.IgnoreKey, h]
  | writeAt offset b => simp [Call.exec, WriteAt, hp, h]
  | close => simp [Call.exec, Close, hp, onceDo, h]
  | discard => simp [Call.exec, Discard, onceDo, h, hp]

theorem runCalls_append (cs ds : List Call) (s : MemoryWriter × World) :
    runCalls (cs ++ ds) s = (runCalls cs s).bind (runCalls ds) := by
  induction cs generalizing s with
  | nil => simp [runCalls]
  | cons c cs ih =>
    simp only [List.cons_append, runCalls]
    cases c.exec s with
    | none => simp
    | some s1 => simpa using ih s1

theorem runCalls_nonEnd (cs : List Call) (s : MemoryWriter × World) (p : Nat)
    (hcs : ∀ c ∈ cs, c.isEnd = false) (hp : s.1.item = some p) :
    ∃ s', runCalls cs s = some s' ∧ s'.1.item = some p ∧ s'.1.once = s.1.once ∧
      s'.1.endFunc = s.1.endFunc ∧ s'.2.endCalls = s.2.endCalls := by
  induction cs generalizing s with
  | nil => exact ⟨s, rfl, hp, rfl, rfl, rfl⟩
  | cons c cs ih =>
    obtain ⟨s1, h1, hi1, ho1, hf1, he1⟩ :=
      exec_nonEnd c s p (hcs c (List.mem_cons_self _ _)) hp
    obtain ⟨s2, h2, hi2, ho2, hf2, he2⟩ :=
      ih s1 (fun d hd => hcs d (List.mem_cons_of_mem _ hd)) hi1
    exact ⟨s2, by simp [runCalls, h1, h2], hi2, ho2.trans ho1, hf2.trans hf1, he2.trans he1⟩

theorem runCalls_fired (cs : List Call) (s : MemoryWriter × World) (p : Nat)
    (hp : s.1.item = some p) (h : s.1.once = true) :
    ∃ s', runCalls cs s = some s' ∧ s'.1.item = some p ∧ s'.1.once = true ∧
      s'.1.endFunc = s.1.endFunc ∧ s'.2.endCalls = s.2.endCalls := by
  induction cs generalizing s with
  | nil => exact ⟨s, rfl, hp, h, rfl, rfl⟩
  | cons c cs ih =>
    obtain ⟨s1, h1, hi1, ho1, hf1, he1⟩ := exec_fired c s p hp h
    obtain ⟨s2, h2, hi2, ho2, hf2, he2⟩ := ih s1 hi1 ho1
    exact ⟨s2, by simp [runCalls, h1, h2], hi2, ho2, hf2.trans hf1, he2.trans he1⟩

/-! ## The completion callback -/

/-- C1. On a writer made by `NewMemoryWriter`, take any calls that contain a `Close` or
`Discard`: `pre` are the calls before the first of them (so only `WriteHeader`, `Write`,
`WriteAt`), `e` is that first `Close` or `Discard`, `post` is everything after it, in any
order and number. Every call returns; the callback has not been invoked after `pre`, it
has been invoked exactly once after `e`, and it is still invoked exactly once after
`post`: one invocation in total, made during the first `Close` or `Discard`. -/
theorem endFunc_invoked_exactly_once (Sum64String : String → Nat) (now : Int) (σ : World)
    (key : String) (expiredAt status : Int) (isDirty : Bool) (maxSize : Int) (endFunc : Nat)
    (pre post : List Call) (e : Call)
    (hpre : ∀ c ∈ pre, c.isEnd = false) (he : e.isEnd = true) :
    ∃ s1 s2 s3,
      runCalls pre (NewMemoryWriter Sum64String now σ key expiredAt status isDirty maxSize endFunc)
        = some s1 ∧
      s1.2.endCalls = σ.endCalls ∧
      e.exec s1 = some s2 ∧
      s2.2.endCalls = σ.endCalls ++ [endFunc] ∧
      runCalls post s2 = some s3 ∧
      s3.2.endCalls = σ.endCalls ++ [endFunc] ∧
      runCalls (pre ++ e :: post)
        (NewMemoryWriter Sum64String now σ key expiredAt status isDirty maxSize endFunc)
        = some s3 := by
  obtain ⟨s1, h1, hi1, ho1, hf1, he1⟩ :=
    runCalls_nonEnd pre
      (NewMemoryWriter Sum64String now σ key expiredAt status isDirty maxSize endFunc)
      σ.nextAddr hpre rfl
  obtain ⟨s2, h2, hi2, ho2, hf2, he2⟩ := exec_end_fresh e s1 he (ho1.trans rfl)
  obtain ⟨s3, h3, hi3, ho3, hf3, he3⟩ := runCalls_fired post s2 σ.nextAddr (hi2.trans hi1) ho2
  have hf : s1.1.endFunc = endFunc := hf1.trans rfl
  have hc : s1.2.endCalls = σ.endCalls := he1.trans rfl
  refine ⟨s1, s2, s3, h1, hc, h2, ?_, h3, ?_, ?_⟩
  · rw [he2, hf, hc]
  · rw [he3, he2, hf, hc]
  · rw [runCalls_append, h1]
    simp [runCalls, h2, h3]

/-- C1 at a concrete input: `Write`, `Discard`, then `Close`, `Write`, `Discard`, `Close`. -/
theorem endFunc_invoked_exactly_once_witness :
    ∃ s1 s2 s3,
      runCalls [Call.write [1, 2]]
        (NewMemoryWriter String.length 100 (emptyWorld 2 true) "a" 105 200 true 10 7) = some s1 ∧
      s1.2.endCalls = (emptyWorld 2 true).endCalls ∧
      Call.discard.exec s1 = some s2 ∧
      s2.2.endCalls = (emptyWorld 2 true).endCalls ++ [7] ∧
      runCalls [Call.close, Call.write [3], Call.discard, Call.close] s2 = some s3 ∧
      s3.2.endCalls = (emptyWorld 2 true).endCalls ++ [7] ∧
      runCalls ([Call.write [1, 2]] ++ Call.discard :: [Call.close, Call.write [3], Call.discard, Call.close])
        (NewMemoryWriter String.length 100 (emptyWorld 2 true) "a" 105 200 true 10 7) = some s3 :=
  endFunc_invoked_exactly_once String.length 100 (emptyWorld 2 true) "a" 105 200 true 10 7
    [Call.write [1, 2]] [Call.close, Call.write [3], Call.discard, Call.close] Call.discard
    (by decide) (by decide)



@[simp]
theorem onceDo_storage (w : MemoryWriter) (σ : World) :
    (onceDo w σ).2.storage = σ.storage := by
  unfold onceDo; split <;> rfl

@[simp]
theorem onceDo_heap (w : MemoryWriter) (σ : World) :
    (onceDo w σ).2.heap = σ.heap := by
  unfold onceDo; split <;> rfl

@[simp]
theorem onceDo_nextAddr (w : MemoryWriter) (σ : World) :
    (onceDo w σ).2.nextAddr = σ.nextAddr := by
  unfold onceDo; split <;> rfl

theorem written_written (s : MemoryWriter × World) (p : Nat) (hs bs hs2 bs2 : Int)
    (ik ik2 : List String) (hd bd hd2 bd2 : List Byte) :
    written (written s p hs bs ik hd bd) p hs2 bs2 ik2 hd2 bd2
      = written s p hs2 bs2 ik2 (hd ++ hd2) (bd ++ bd2) := by
  simp [written]

theorem written_self (s : MemoryWriter × World) (p : Nat) :
    written s p s.1.headerSize s.1.bodySize s.2.storage.ignoreKeys [] [] = s := by
  simp [written]

/-- One call other than `Close` / `Discard` on a writer whose item is at `p`: only the two
size counters of the writer, the ignore set, and the header and body bytes of the
writer's own item can differ afterwards. -/
theorem exec_nonEnd_shape (c : Call) (s : MemoryWriter × World) (p : Nat)
    (hc : c.isEnd = false) (hp : s.1.item = some p) :
    ∃ hs bs ik, c.exec s = some (written s p hs bs ik (headerBytes [c]) (bodyBytes [c])) := by
  cases c with
  | writeHeader data =>
    exact ⟨wrapInt64 (s.1.headerSize + data.length), s.1.bodySize, s.2.storage.ignoreKeys,
      by simp [Call.exec, WriteHeader, hp, headerBytes, bodyBytes, written]⟩
  | write data =>
    by_cases hov : s.1.maxSize > 0 ∧ wrapInt64 (s.1.bodySize + data.length) > s.1.maxSize
    · exact ⟨s.1.headerSize, wrapInt64 (s.1.bodySize + data.length),
        s.2.storage.ignoreKeys ++ [s.1.key],
        by simp [Call.exec, Write, hp, headerBytes, bodyBytes, hov, MemoryStorage.IgnoreKey, written]⟩
    · exact ⟨s.1.headerSize, wrapInt64 (s.1.bodySize + data.length), s.2.storage.ignoreKeys,
        by simp [Call.exec, Write, hp, headerBytes, bodyBytes, hov, written]⟩
  | writeAt offset b =>
    exact ⟨s.1.headerSize, s.1.bodySize, s.2.storage.ignoreKeys,
      by simp [Call.exec, WriteAt, headerBytes, bodyBytes, written]⟩
  | close => simp [Call.isEnd] at hc
  | discard => simp [Call.isEnd] at hc

theorem headerBytes_cons (c : Call) (cs : List Call) :
    headerBytes (c :: cs) = headerBytes [c] ++ headerBytes cs := by
  cases c <;> simp [headerBytes]

theorem bodyBytes_cons (c : Call) (cs : List Call) :
    bodyBytes (c :: cs) = bodyBytes [c] ++ bodyBytes cs := by
  cases c <;> simp [bodyBytes]

/-- Any calls other than `Close` / `Discard` on a writer whose item is at `p` all return,
and the state afterwards differs only as `written` allows. -/
theorem runCalls_nonEnd_shape (cs : List Call) (s : MemoryWriter × World) (p : Nat)
    (hcs : ∀ c ∈ cs, c.isEnd = false) (hp : s.1.item = some p) :
    ∃ hs bs ik, runCalls cs s = some (written s p hs bs ik (headerBytes cs) (bodyBytes cs)) := by
  induction cs generalizing s with
  | nil =>
    exact ⟨s.1.headerSize, s.1.bodySize, s.2.storage.ignoreKeys,
      by simp [runCalls, headerBytes, bodyBytes, written_self]⟩
  | cons c cs ih =>
    obtain ⟨hs1, bs1, ik1, h1⟩ :=
      exec_nonEnd_shape c s p (hcs c (List.mem_cons_self _ _)) hp
    obtain ⟨hs2, bs2, ik2, h2⟩ :=
      ih (written s p hs1 bs1 ik1 (headerBytes [c]) (bodyBytes [c]))
        (fun d hd => hcs d (List.mem_cons_of_mem _ hd)) hp
    refine ⟨hs2, bs2, ik2, ?_⟩
    simp only [runCalls, h1, Option.some_bind, h2, written_written]
    rw [headerBytes_cons c cs, bodyBytes_cons c cs]

theorem isEnd_of_isWrite (c : Call) (h : c.isWrite = true) : c.isEnd = false := by
  cases c <;> simp_all [Call.isWrite, Call.isEnd]

@[simp]
theorem trySendDirty_valuesMap (st : MemoryStorage) (key : String) :
    (st.trySendDirty key).valuesMap = st.valuesMap := by
  unfold MemoryStorage.trySendDirty; split <;> rfl

@[simp]
theorem trySendDirty_ignoreKeys (st : MemoryStorage) (key : String) :
    (st.trySendDirty key).ignoreKeys = st.ignoreKeys := by
  unfold MemoryStorage.trySendDirty; split <;> rfl

theorem Close_err (w : MemoryWriter) (σ : World) : (Close w σ).1 = none := by
  unfold Close; split <;> rfl

/-- With a non-nil item at `p`, `Close` stores `p` at the writer's hash. -/
theorem Close_valuesMap (w : MemoryWriter) (σ : World) (p : Nat) (hp : w.item = some p) :
    (Close w σ).2.2.storage.valuesMap = Function.update σ.storage.valuesMap w.hash (some p) := by
  simp only [Close, hp, onceDo_storage]
  split_ifs <;> simp

/-- With a non-nil item at `p`, `Close` sets `IsDone` on the item at `p` and touches no
other item. -/
theorem Close_heap (w : MemoryWriter) (σ : World) (p : Nat) (hp : w.item = some p) :
    (Close w σ).2.2.heap = Function.update σ.heap p { σ.heap p with IsDone := true } := by
  simp [Close, hp]

/-! ## Commit -/

/-- C2. A writer made by `NewMemoryWriter` with `(key, expiredAt, status)` is given any
`WriteHeader` and `Write` calls; all of them return. `Close` then returns a nil error,
and the store's mapping at the fingerprint of `key` holds an entry with `IsDone = true`,
`ExpiresAt = expiredAt`, `Status = status`, header bytes the `WriteHeader` payloads in
order and body bytes the `Write` payloads in order, whatever was there before. At every
other fingerprint the mapping holds the address it held before the writer was made,
and, in a world whose mapped addresses are all allocated, the entry it held before. -/
theorem Close_publishes_entry (Sum64String : String → Nat) (now : Int) (σ : World)
    (key : String) (expiredAt status : Int) (isDirty : Bool) (maxSize : Int) (endFunc : Nat)
    (cs : List Call) (hcs : ∀ c ∈ cs, c.isWrite = true) :
    ∃ w1 σ1,
      runCalls cs (NewMemoryWriter Sum64String now σ key expiredAt status isDirty maxSize endFunc)
        = some (w1, σ1) ∧
      (Close w1 σ1).1 = none ∧
      (∃ it, (Close w1 σ1).2.2.entryAt (calculateHash Sum64String key) = some it ∧
        it.IsDone = true ∧ it.ExpiresAt = expiredAt ∧ it.Status = status ∧
        it.HeaderValue = headerBytes cs ∧ it.BodyValue = bodyBytes cs) ∧
      (∀ h, h ≠ calculateHash Sum64String key →
        (Close w1 σ1).2.2.storage.valuesMap h = σ.storage.valuesMap h) ∧
      (σ.Allocated → ∀ h, h ≠ calculateHash Sum64String key →
        (Close w1 σ1).2.2.entryAt h = σ.entryAt h) := by
  obtain ⟨hs, bs, ik, hrun⟩ :=
    runCalls_nonEnd_shape cs
      (NewMemoryWriter Sum64String now σ key expiredAt status isDirty maxSize endFunc)
      σ.nextAddr (fun c hc => isEnd_of_isWrite c (hcs c hc)) rfl
  have hp : (written (NewMemoryWriter Sum64String now σ key expiredAt status isDirty maxSize
      endFunc) σ.nextAddr hs bs ik (headerBytes cs) (bodyBytes cs)).1.item = some σ.nextAddr := rfl
  have hmap : ∀ h, h ≠ calculateHash Sum64String key →
      (Close (written (NewMemoryWriter Sum64String now σ key expiredAt status isDirty
          maxSize endFunc) σ.nextAddr hs bs ik (headerBytes cs) (bodyBytes cs)).1
        (written (NewMemoryWriter Sum64String now σ key expiredAt status isDirty
          maxSize endFunc) σ.nextAddr hs bs ik (headerBytes cs) (bodyBytes cs)).2).2.2.storage.valuesMap h
        = σ.storage.valuesMap h := by
    intro h hh
    rw [Close_valuesMap _ _ _ hp]
    simp [written, NewMemoryWriter, Function.update_noteq hh]
  refine ⟨(written _ σ.nextAddr hs bs ik (headerBytes cs) (bodyBytes cs)).1,
    (written _ σ.nextAddr hs bs ik (headerBytes cs) (bodyBytes cs)).2, hrun, Close_err _ _, ?_,
    hmap, ?_⟩
  · simp only [World.entryAt, Close_valuesMap _ _ _ hp, Close_heap _ _ _ hp]
    simp [written, NewMemoryWriter]
  · intro hal h hh
    simp only [World.entryAt, hmap h hh, Close_heap _ _ _ hp]
    cases hq : σ.storage.valuesMap h with
    | none => rfl
    | some q =>
      have hne : q ≠ σ.nextAddr := Nat.ne_of_lt (hal h q hq)
      simp [written, NewMemoryWriter, Function.update_noteq hne]

/-- C2 at a concrete input: a `WriteHeader` and two `Write`s for key "a", whose
fingerprint already has an entry in the store. -/
theorem Close_publishes_entry_witness :
    (∃ w1 σ1,
      runCalls [Call.writeHeader [1], Call.write [2, 3], Call.write [4]]
        (NewMemoryWriter String.length 100 sampleWorld "a" 105 200 true 10 7) = some (w1, σ1) ∧
      (Close w1 σ1).1 = none ∧
      (∃ it, (Close w1 σ1).2.2.entryAt (calculateHash String.length "a") = some it ∧
        it.IsDone = true ∧ it.ExpiresAt = 105 ∧ it.Status = 200 ∧
        it.HeaderValue = headerBytes [Call.writeHeader [1], Call.write [2, 3], Call.write [4]] ∧
        it.BodyValue = bodyBytes [Call.writeHeader [1], Call.write [2, 3], Call.write [4]]) ∧
      (∀ h, h ≠ calculateHash String.length "a" →
        (Close w1 σ1).2.2.storage.valuesMap h = sampleWorld.storage.valuesMap h) ∧
      (sampleWorld.Allocated → ∀ h, h ≠ calculateHash String.length "a" →
        (Close w1 σ1).2.2.entryAt h = sampleWorld.entryAt h)) ∧
    sampleWorld.Allocated :=
  ⟨Close_publishes_entry String.length 100 sampleWorld "a" 105 200 true 10 7
      [Call.writeHeader [1], Call.write [2, 3], Call.write [4]] (by decide),
    by
      intro h p hh
      simp only [sampleWorld] at hh ⊢
      split_ifs at hh <;> simp at hh <;> omega⟩



theorem wrapInt64_of_range (x : Int) (hlo : -9223372036854775808 ≤ x) (hhi : x ≤ maxInt64) :
    wrapInt64 x = x := by
  unfold wrapInt64
  unfold maxInt64 at hhi
  omega

/-- What `Write` returns on a writer whose item is at `p`, in terms of the new body size. -/
theorem Write_eq (w : MemoryWriter) (σ : World) (data : List Byte) (p : Nat)
    (hp : w.item = some p) :
    Write w σ data = some
      ((data.length,
        if 0 < w.maxSize ∧ w.maxSize < wrapInt64 (w.bodySize + data.length)
        then some CacheError.ErrEntityTooLarge else none),
       { w with bodySize := wrapInt64 (w.bodySize + data.length) },
       { σ with
          storage :=
            if 0 < w.maxSize ∧ w.maxSize < wrapInt64 (w.bodySize + data.length)
            then σ.storage.IgnoreKey w.key else σ.storage,
          heap := Function.update σ.heap p
            { σ.heap p with BodyValue := (σ.heap p).BodyValue ++ data } }) := by
  simp only [Write, hp, gt_iff_lt]
  split_ifs <;> rfl

/-! ## Size limit -/

/-- C3. `Write` on a writer with a non-nil item returns `n = len(data)` and an error that
is `ErrEntityTooLarge` exactly when `maxSize > 0` and the body size after the call is
greater than `maxSize`, and nil otherwise; the body size after the call is the `int64`
sum of the size before and `len(data)`, which is the exact sum whenever that fits in an
`int64`. With `maxSize = 0` the error is always nil. On a new writer with `maxSize = 10`
a first `Write` of 8 bytes returns `(8, nil)` and a second one `(8, ErrEntityTooLarge)`. -/
theorem Write_error_iff_oversize (w : MemoryWriter) (σ : World) (data : List Byte) (p : Nat)
    (hp : w.item = some p) :
    (∃ err w1 σ1, Write w σ data = some ((data.length, err), w1, σ1) ∧
      (err = some CacheError.ErrEntityTooLarge ↔ (0 < w.maxSize ∧ w.maxSize < BodySize w1)) ∧
      (err ≠ some CacheError.ErrEntityTooLarge → err = none) ∧
      BodySize w1 = wrapInt64 (BodySize w + data.length) ∧
      (-9223372036854775808 ≤ BodySize w → BodySize w + data.length ≤ maxInt64 →
        BodySize w1 = BodySize w + data.length) ∧
      (w.maxSize = 0 → err = none)) ∧
    (∀ (Sum64String : String → Nat) (now : Int) (σ0 : World) (key : String)
        (expiredAt status : Int) (isDirty : Bool) (endFunc : Nat) (d1 d2 : List Byte),
      d1.length = 8 → d2.length = 8 →
      ∃ wa σa wb σb,
        Write (NewMemoryWriter Sum64String now σ0 key expiredAt status isDirty 10 endFunc).1
          (NewMemoryWriter Sum64String now σ0 key expiredAt status isDirty 10 endFunc).2 d1
          = some ((8, none), wa, σa) ∧
        Write wa σa d2 = some ((8, some CacheError.ErrEntityTooLarge), wb, σb)) := by
  constructor
  · refine ⟨_, _, _, Write_eq w σ data p hp, ?_, ?_, rfl, ?_, ?_⟩
    · simp [BodySize]
    · intro h
      split_ifs at h ⊢ <;> simp_all
    · intro hlo hhi
      exact wrapInt64_of_range _ (by simp only [BodySize] at hlo ⊢; omega) hhi
    · intro h0
      simp [h0]
  · intro Sum64String now σ0 key expiredAt status isDirty endFunc d1 d2 h1 h2
    have e1 := Write_eq (NewMemoryWriter Sum64String now σ0 key expiredAt status isDirty 10 endFunc).1
      (NewMemoryWriter Sum64String now σ0 key expiredAt status isDirty 10 endFunc).2 d1
      σ0.nextAddr rfl
    simp only [NewMemoryWriter, h1] at e1
    norm_num [wrapInt64] at e1
    obtain ⟨wa, σa, ha, hia, hma, hba⟩ : ∃ wa σa,
        Write (NewMemoryWriter Sum64String now σ0 key expiredAt status isDirty 10 endFunc).1
          (NewMemoryWriter Sum64String now σ0 key expiredAt status isDirty 10 endFunc).2 d1
          = some ((8, none), wa, σa) ∧
        wa.item = some σ0.nextAddr ∧ wa.maxSize = 10 ∧ wa.bodySize = 8 :=
      ⟨_, _, e1, rfl, rfl, rfl⟩
    have e2 := Write_eq wa σa d2 σ0.nextAddr hia
    rw [hma, hba, h2] at e2
    norm_num [wrapInt64] at e2
    exact ⟨wa, σa, _, _, ha, e2⟩

/-- C3 at a concrete input: eleven bytes written to a new writer with `maxSize = 10`. -/
theorem Write_error_iff_oversize_witness :
    sampleWriter.1.item = some 2 ∧
    ∃ err w1 σ1,
      Write sampleWriter.1 sampleWriter.2 [1, 2, 3, 4, 5, 6, 7, 8, 9, 10, 11]
        = some ((([1, 2, 3, 4, 5, 6, 7, 8, 9, 10, 11] : List Byte).length, err), w1, σ1) ∧
      (err = some CacheError.ErrEntityTooLarge ↔
        (0 < sampleWriter.1.maxSize ∧ sampleWriter.1.maxSize < BodySize w1)) ∧
      (err ≠ some CacheError.ErrEntityTooLarge → err = none) ∧
      BodySize w1 = wrapInt64 (BodySize sampleWriter.1
        + ([1, 2, 3, 4, 5, 6, 7, 8, 9, 10, 11] : List Byte).length) ∧
      (-9223372036854775808 ≤ BodySize sampleWriter.1 →
        BodySize sampleWriter.1 + ([1, 2, 3, 4, 5, 6, 7, 8, 9, 10, 11] : List Byte).length ≤ maxInt64 →
        BodySize w1 = BodySize sampleWriter.1
          + ([1, 2, 3, 4, 5, 6, 7, 8, 9, 10, 11] : List Byte).length) ∧
      (sampleWriter.1.maxSize = 0 → err = none) :=
  ⟨rfl, (Write_error_iff_oversize sampleWriter.1 sampleWriter.2
    [1, 2, 3, 4, 5, 6, 7, 8, 9, 10, 11] 2 rfl).1⟩

/-! ## Discard -/

/-- After `once.Do` the guard has fired; nothing else in the writer changes. -/
theorem onceDo_writer (w : MemoryWriter) (σ : World) :
    (onceDo w σ).1 = { w with once := true } := by
  unfold onceDo
  split
  · cases w; simp_all
  · rfl

/-- A `Close` changes nothing in the writer except that the guard has fired. -/
theorem Close_writer (w : MemoryWriter) (σ : World) :
    (Close w σ).2.1 = { w with once := true } := by
  unfold Close; split <;> simp [onceDo_writer]

/-- A `Discard` changes nothing in the writer except that the guard has fired. -/
theorem Discard_writer (w : MemoryWriter) (σ : World) :
    (Discard w σ).2.1 = { w with once := true } := by
  simp [Discard, onceDo_writer]

theorem Close_hash (w : MemoryWriter) (σ : World) : (Close w σ).2.1.hash = w.hash := by
  rw [Close_writer]

/-- C4. `Discard` on any writer in any world returns a nil error; afterwards the store's
mapping has nothing at the writer's fingerprint, it is unchanged at every other
fingerprint, and no item has been changed, so the entries reachable at the other
fingerprints are the ones reachable before. This is so in particular for a `Discard`
that follows a `Close` of the same writer. -/
theorem Discard_removes_entry (w : MemoryWriter) (σ : World) :
    (Discard w σ).1 = none ∧
    (Discard w σ).2.2.storage.valuesMap w.hash = none ∧
    (Discard w σ).2.2.entryAt w.hash = none ∧
    (∀ h, h ≠ w.hash → (Discard w σ).2.2.storage.valuesMap h = σ.storage.valuesMap h) ∧
    (Discard w σ).2.2.heap = σ.heap ∧
    (∀ h, h ≠ w.hash → (Discard w σ).2.2.entryAt h = σ.entryAt h) ∧
    (Discard (Close w σ).2.1 (Close w σ).2.2).1 = none ∧
    (Discard (Close w σ).2.1 (Close w σ).2.2).2.2.entryAt w.hash = none ∧
    (∀ h, h ≠ w.hash →
      (Discard (Close w σ).2.1 (Close w σ).2.2).2.2.entryAt h = (Close w σ).2.2.entryAt h) := by
  have key : ∀ (v : MemoryWriter) (τ : World),
      (Discard v τ).2.2.storage.valuesMap = Function.update τ.storage.valuesMap v.hash none ∧
      (Discard v τ).2.2.heap = τ.heap := by
    intro v τ
    simp [Discard]
  refine ⟨rfl, ?_, ?_, ?_, (key w σ).2, ?_, rfl, ?_, ?_⟩
  · simp [(key w σ).1]
  · simp [World.entryAt, (key w σ).1]
  · intro h hh
    simp [(key w σ).1, Function.update_noteq hh]
  · intro h hh
    simp [World.entryAt, (key w σ).1, (key w σ).2, Function.update_noteq hh]
  · rw [World.entryAt, (key (Close w σ).2.1 (Close w σ).2.2).1, Close_hash]
    simp
  · intro h hh
    rw [World.entryAt, World.entryAt, (key (Close w σ).2.1 (Close w σ).2.2).1,
      (key (Close w σ).2.1 (Close w σ).2.2).2, Close_hash, Function.update_noteq hh]



/-! ## Ignore set and accepted bytes -/

/-- C5. `Write` on a writer with a non-nil item hands the writer's own key to the store's
`IgnoreKey`, once, when it returns `ErrEntityTooLarge`, and leaves the store untouched
when it returns a nil error; those are the only two outcomes. So the ignore set gains
exactly the writer's key if and only if `Write` returns the oversize error, and a `Write`
that stays within the limit, or one on a writer with `maxSize = 0`, leaves the ignore set
as it was. -/
theorem Write_ignores_key_iff_oversize (w : MemoryWriter) (σ : World) (data : List Byte)
    (p : Nat) (hp : w.item = some p) :
    ∃ n err w1 σ1, Write w σ data = some ((n, err), w1, σ1) ∧
      (err = some CacheError.ErrEntityTooLarge ∨ err = none) ∧
      (err = some CacheError.ErrEntityTooLarge → σ1.storage = σ.storage.IgnoreKey w.key) ∧
      (err = none → σ1.storage = σ.storage) ∧
      (σ1.storage.ignoreKeys = σ.storage.ignoreKeys ++ [w.key] ↔
        err = some CacheError.ErrEntityTooLarge) ∧
      (σ1.storage.ignoreKeys = σ.storage.ignoreKeys ↔ err = none) ∧
      (BodySize w1 ≤ w.maxSize → σ1.storage.ignoreKeys = σ.storage.ignoreKeys) ∧
      (w.maxSize = 0 → σ1.storage.ignoreKeys = σ.storage.ignoreKeys) := by
  refine ⟨_, _, _, _, Write_eq w σ data p hp, ?_⟩
  by_cases hov : 0 < w.maxSize ∧ w.maxSize < wrapInt64 (w.bodySize + data.length)
  · have h1 : ¬ wrapInt64 (w.bodySize + data.length) ≤ w.maxSize := not_le.mpr hov.2
    have h2 : w.maxSize ≠ 0 := ne_of_gt hov.1
    simp [hov, MemoryStorage.IgnoreKey, BodySize, h1, h2]
  · simp [hov, BodySize]

/-- C5 at a concrete input: eleven bytes written to a new writer with `maxSize = 10`. -/
theorem Write_ignores_key_iff_oversize_witness :
    sampleWriter.1.item = some 2 ∧
    ∃ n err w1 σ1,
      Write sampleWriter.1 sampleWriter.2 [1, 2, 3, 4, 5, 6, 7, 8, 9, 10, 11]
        = some ((n, err), w1, σ1) ∧
      (err = some CacheError.ErrEntityTooLarge ∨ err = none) ∧
      (err = some CacheError.ErrEntityTooLarge →
        σ1.storage = sampleWriter.2.storage.IgnoreKey sampleWriter.1.key) ∧
      (err = none → σ1.storage = sampleWriter.2.storage) ∧
      (σ1.storage.ignoreKeys = sampleWriter.2.storage.ignoreKeys ++ [sampleWriter.1.key] ↔
        err = some CacheError.ErrEntityTooLarge) ∧
      (σ1.storage.ignoreKeys = sampleWriter.2.storage.ignoreKeys ↔ err = none) ∧
      (BodySize w1 ≤ sampleWriter.1.maxSize →
        σ1.storage.ignoreKeys = sampleWriter.2.storage.ignoreKeys) ∧
      (sampleWriter.1.maxSize = 0 → σ1.storage.ignoreKeys = sampleWriter.2.storage.ignoreKeys) :=
  ⟨rfl, Write_ignores_key_iff_oversize sampleWriter.1 sampleWriter.2
    [1, 2, 3, 4, 5, 6, 7, 8, 9, 10, 11] 2 rfl⟩

/-- C6. `Write` on a writer with a non-nil item at `p`, whatever error it returns, returns
`n = len(data)`, leaves the item's body buffer equal to the previous buffer followed by
`data`, and, the previous body size being an `int64` to which `len(data)` can be added
without overflow, leaves `BodySize()` greater by exactly `len(data)`. This holds in
particular when the returned error is `ErrEntityTooLarge`. -/
theorem Write_accepts_bytes (w : MemoryWriter) (σ : World) (data : List Byte) (p : Nat)
    (hp : w.item = some p)
    (hlo : -9223372036854775808 ≤ BodySize w) (hhi : BodySize w + data.length ≤ maxInt64) :
    ∃ err w1 σ1, Write w σ data = some ((data.length, err), w1, σ1) ∧
      (σ1.heap p).BodyValue = (σ.heap p).BodyValue ++ data ∧
      BodySize w1 = BodySize w + data.length ∧
      ((0 < w.maxSize ∧ w.maxSize < BodySize w + data.length) →
        err = some CacheError.ErrEntityTooLarge) := by
  have hw : wrapInt64 (w.bodySize + data.length) = w.bodySize + data.length :=
    wrapInt64_of_range _ (by simp only [BodySize] at hlo; omega) hhi
  refine ⟨_, _, _, Write_eq w σ data p hp, ?_, ?_, ?_⟩
  · simp
  · simp [BodySize, hw]
  · intro h
    simp only [BodySize] at h
    simp [hw, h]

/-- C6 at a concrete input: eleven bytes, over the limit of 10, written to a new writer. -/
theorem Write_accepts_bytes_witness :
    (sampleWriter.1.item = some 2 ∧ -9223372036854775808 ≤ BodySize sampleWriter.1 ∧
      BodySize sampleWriter.1 + ([1, 2, 3, 4, 5, 6, 7, 8, 9, 10, 11] : List Byte).length ≤ maxInt64) ∧
    ∃ err w1 σ1,
      Write sampleWriter.1 sampleWriter.2 [1, 2, 3, 4, 5, 6, 7, 8, 9, 10, 11]
        = some ((([1, 2, 3, 4, 5, 6, 7, 8, 9, 10, 11] : List Byte).length, err), w1, σ1) ∧
      (σ1.heap 2).BodyValue
        = (sampleWriter.2.heap 2).BodyValue ++ [1, 2, 3, 4, 5, 6, 7, 8, 9, 10, 11] ∧
      BodySize w1 = BodySize sampleWriter.1
        + ([1, 2, 3, 4, 5, 6, 7, 8, 9, 10, 11] : List Byte).length ∧
      ((0 < sampleWriter.1.maxSize ∧ sampleWriter.1.maxSize < BodySize sampleWriter.1
          + ([1, 2, 3, 4, 5, 6, 7, 8, 9, 10, 11] : List Byte).length) →
        err = some CacheError.ErrEntityTooLarge) :=
  ⟨⟨rfl, by decide, by decide⟩,
    Write_accepts_bytes sampleWriter.1 sampleWriter.2 [1, 2, 3, 4, 5, 6, 7, 8, 9, 10, 11] 2 rfl
      (by decide) (by decide)⟩



/-! ## Dirty notification -/

/-- The dirty queue after `Close` on a writer with a non-nil item. -/
theorem Close_dirtyChan (w : MemoryWriter) (σ : World) (p : Nat) (hp : w.item = some p) :
    (Close w σ).2.2.storage.dirtyChan =
      if w.isDirty = true ∧ σ.storage.parentStorage = true ∧
          σ.storage.dirtyChan.length < σ.storage.dirtyCap
      then σ.storage.dirtyChan ++ [w.key] else σ.storage.dirtyChan := by
  simp only [Close, hp, onceDo_storage, MemoryStorage.trySendDirty]
  split_ifs <;> simp_all

/-- C7. With the dirty channel a bounded FIFO queue, `Close` on a writer with a non-nil
item at `p` appends the writer's key to the queue when the dirty flag is set, a parent
store is configured and the queue is not full, and leaves the queue as it was in every
other case; so the key is appended exactly in that case. In all cases `Close` returns a
nil error and publishes the entry: the mapping holds `p` at the writer's hash and the
item at `p` is the writer's item marked done. -/
theorem Close_dirty_notification (w : MemoryWriter) (σ : World) (p : Nat)
    (hp : w.item = some p) :
    (Close w σ).1 = none ∧
    (Close w σ).2.2.storage.valuesMap w.hash = some p ∧
    (Close w σ).2.2.entryAt w.hash = some { σ.heap p with IsDone := true } ∧
    ((w.isDirty = true ∧ σ.storage.parentStorage = true ∧
        σ.storage.dirtyChan.length < σ.storage.dirtyCap) →
      (Close w σ).2.2.storage.dirtyChan = σ.storage.dirtyChan ++ [w.key]) ∧
    (¬ (w.isDirty = true ∧ σ.storage.parentStorage = true ∧
        σ.storage.dirtyChan.length < σ.storage.dirtyCap) →
      (Close w σ).2.2.storage.dirtyChan = σ.storage.dirtyChan) ∧
    ((Close w σ).2.2.storage.dirtyChan = σ.storage.dirtyChan ++ [w.key] ↔
      (w.isDirty = true ∧ σ.storage.parentStorage = true ∧
        σ.storage.dirtyChan.length < σ.storage.dirtyCap)) := by
  refine ⟨Close_err w σ, ?_, ?_, ?_, ?_, ?_⟩
  · simp [Close_valuesMap w σ p hp]
  · simp [World.entryAt, Close_valuesMap w σ p hp, Close_heap w σ p hp]
  · intro h
    rw [Close_dirtyChan w σ p hp, if_pos h]
  · intro h
    rw [Close_dirtyChan w σ p hp, if_neg h]
  · rw [Close_dirtyChan w σ p hp]
    split_ifs with h
    · simp [h]
    · simp [h]

/-- C7 at a concrete input: a dirty writer on a store with a parent and an empty queue. -/
theorem Close_dirty_notification_witness :
    sampleWriter.1.item = some 2 ∧
    (Close sampleWriter.1 sampleWriter.2).1 = none ∧
    (Close sampleWriter.1 sampleWriter.2).2.2.storage.valuesMap sampleWriter.1.hash = some 2 ∧
    (Close sampleWriter.1 sampleWriter.2).2.2.entryAt sampleWriter.1.hash
      = some { sampleWriter.2.heap 2 with IsDone := true } ∧
    ((sampleWriter.1.isDirty = true ∧ sampleWriter.2.storage.parentStorage = true ∧
        sampleWriter.2.storage.dirtyChan.length < sampleWriter.2.storage.dirtyCap) →
      (Close sampleWriter.1 sampleWriter.2).2.2.storage.dirtyChan
        = sampleWriter.2.storage.dirtyChan ++ [sampleWriter.1.key]) ∧
    (¬ (sampleWriter.1.isDirty = true ∧ sampleWriter.2.storage.parentStorage = true ∧
        sampleWriter.2.storage.dirtyChan.length < sampleWriter.2.storage.dirtyCap) →
      (Close sampleWriter.1 sampleWriter.2).2.2.storage.dirtyChan
        = sampleWriter.2.storage.dirtyChan) ∧
    ((Close sampleWriter.1 sampleWriter.2).2.2.storage.dirtyChan
        = sampleWriter.2.storage.dirtyChan ++ [sampleWriter.1.key] ↔
      (sampleWriter.1.isDirty = true ∧ sampleWriter.2.storage.parentStorage = true ∧
        sampleWriter.2.storage.dirtyChan.length < sampleWriter.2.storage.dirtyCap)) :=
  ⟨rfl, Close_dirty_notification sampleWriter.1 sampleWriter.2 2 rfl⟩



/-! ## Repeated and mixed lifecycle calls -/

/-- The world after `once.Do`: the callback is logged unless the guard had fired. -/
theorem onceDo_world (w : MemoryWriter) (σ : World) :
    (onceDo w σ).2 =
      { σ with endCalls := if w.once = true then σ.endCalls else σ.endCalls ++ [w.endFunc] } := by
  unfold onceDo
  split <;> simp_all

theorem onceDo_eq (w : MemoryWriter) (σ : World) :
    onceDo w σ = ({ w with once := true },
      { σ with endCalls := if w.once = true then σ.endCalls else σ.endCalls ++ [w.endFunc] }) :=
  Prod.ext (onceDo_writer w σ) (onceDo_world w σ)

/-- Everything `Close` does on a writer with a non-nil item at `p`. -/
theorem Close_eq (w : MemoryWriter) (σ : World) (p : Nat) (hp : w.item = some p) :
    Close w σ = (none, { w with once := true },
      { storage :=
          { valuesMap := Function.update σ.storage.valuesMap w.hash (some p),
            parentStorage := σ.storage.parentStorage,
            dirtyChan :=
              if w.isDirty = true ∧ σ.storage.parentStorage = true ∧
                  σ.storage.dirtyChan.length < σ.storage.dirtyCap
              then σ.storage.dirtyChan ++ [w.key] else σ.storage.dirtyChan,
            dirtyCap := σ.storage.dirtyCap,
            ignoreKeys := σ.storage.ignoreKeys },
        heap := Function.update σ.heap p { σ.heap p with IsDone := true },
        nextAddr := σ.nextAddr,
        endCalls := if w.once = true then σ.endCalls else σ.endCalls ++ [w.endFunc] }) := by
  unfold Close
  simp only [hp, onceDo_eq, MemoryStorage.trySendDirty]
  split_ifs <;> simp_all

/-- Everything `Close` does on a writer whose item is nil. -/
theorem Close_nil (w : MemoryWriter) (σ : World) (hn : w.item = none) :
    Close w σ = (none, { w with once := true },
      { σ with endCalls := if w.once = true then σ.endCalls else σ.endCalls ++ [w.endFunc] }) := by
  unfold Close
  simp only [hn, onceDo_eq]

/-- Everything `Discard` does. -/
theorem Discard_eq (w : MemoryWriter) (σ : World) :
    Discard w σ = (none, { w with once := true },
      { σ with
        storage := { σ.storage with valuesMap := Function.update σ.storage.valuesMap w.hash none },
        endCalls := if w.once = true then σ.endCalls else σ.endCalls ++ [w.endFunc] }) := by
  unfold Discard
  simp only [onceDo_eq]

/-- C8, as stated, fails: on a dirty writer whose store has a parent and a queue with room
for two keys, the first `Close` queues the key and the second `Close` queues it again. -/
theorem second_Close_queues_key_again :
    (Close sampleWriter.1 sampleWriter.2).2.2.storage.dirtyChan = ["a"] ∧
    (thenClose (Close sampleWriter.1 sampleWriter.2)).2.2.storage.dirtyChan = ["a", "a"] ∧
    (thenClose (Close sampleWriter.1 sampleWriter.2)).2.2.storage.dirtyChan
      ≠ (Close sampleWriter.1 sampleWriter.2).2.2.storage.dirtyChan := by
  decide

/-- C8, amended. A second `Close` right after a first `Close` returns nil and leaves the
writer, the entry mapping, every item, the ignore set and the callback log as the first
`Close` left them; the dirty queue is also left as it was, except that when the writer
has an item, the dirty flag is set, a parent store is configured and the queue still has
room, the key is appended once more. A second `Discard` right after a first `Discard`
changes nothing at all. -/
theorem second_Close_second_Discard (w : MemoryWriter) (σ : World) :
    (thenClose (Close w σ)).1 = none ∧
    (thenClose (Close w σ)).2.1 = (Close w σ).2.1 ∧
    (thenClose (Close w σ)).2.2.storage.valuesMap = (Close w σ).2.2.storage.valuesMap ∧
    (thenClose (Close w σ)).2.2.heap = (Close w σ).2.2.heap ∧
    (∀ h, (thenClose (Close w σ)).2.2.entryAt h = (Close w σ).2.2.entryAt h) ∧
    (thenClose (Close w σ)).2.2.storage.ignoreKeys = (Close w σ).2.2.storage.ignoreKeys ∧
    (thenClose (Close w σ)).2.2.endCalls = (Close w σ).2.2.endCalls ∧
    (thenClose (Close w σ)).2.2.storage.dirtyChan =
      (if w.item.isSome = true ∧ w.isDirty = true ∧ σ.storage.parentStorage = true ∧
          (Close w σ).2.2.storage.dirtyChan.length < σ.storage.dirtyCap
       then (Close w σ).2.2.storage.dirtyChan ++ [w.key]
       else (Close w σ).2.2.storage.dirtyChan) ∧
    thenDiscard (Discard w σ) = Discard w σ := by
  have hD : thenDiscard (Discard w σ) = Discard w σ := by
    unfold thenDiscard
    rw [Discard_eq w σ]
    simp only [Discard_eq, Function.update_idem, if_true]
  cases hi : w.item with
  | none =>
    have e1 := Close_nil w σ hi
    have e2 : thenClose (Close w σ) = Close w σ := by
      unfold thenClose
      rw [e1]
      rw [Close_nil _ _ (show ({ w with once := true } : MemoryWriter).item = none from hi)]
      simp
    rw [e2]
    simp [hD, Close_err]
  | some p =>
    have e1 := Close_eq w σ p hi
    have e2 := Close_eq (Close w σ).2.1 (Close w σ).2.2 p (by rw [e1]; exact hi)
    unfold thenClose
    rw [e2]
    refine ⟨rfl, ?_, ?_, ?_, ?_, ?_, ?_, ?_, hD⟩
    · rw [e1]
    · rw [e1]; simp
    · rw [e1]; simp
    · intro h
      rw [e1]; simp [World.entryAt]
    · rfl
    · rw [e1]; simp
    · rw [e1]; simp



/-- C9, as stated, fails: after `Discard` and then `Close` on a new writer the mapping
holds the writer's item, marked done, at the writer's fingerprint. -/
theorem Close_after_Discard_publishes :
    (Discard sampleWriter.1 sampleWriter.2).2.2.storage.valuesMap sampleWriter.1.hash = none ∧
    (thenClose (Discard sampleWriter.1 sampleWriter.2)).2.2.storage.valuesMap sampleWriter.1.hash
      = some 2 ∧
    (thenClose (Discard sampleWriter.1 sampleWriter.2)).2.2.entryAt sampleWriter.1.hash
      = some { ExpiresAt := 105, HeaderValue := [], BodyValue := [], Status := 200,
               IsDone := true, ModifiedAt := 100 } := by
  decide

/-- C9, amended. A `Close` that follows a `Discard` on a writer with a non-nil item at `p`
returns nil and does not invoke the completion callback again, but it does go through the
store again and publishes the entry: afterwards the mapping holds `p` at the writer's
fingerprint and the entry there is the writer's item marked done. -/
theorem Close_after_Discard (w : MemoryWriter) (σ : World) (p : Nat) (hp : w.item = some p) :
    (thenClose (Discard w σ)).1 = none ∧
    (thenClose (Discard w σ)).2.2.endCalls = (Discard w σ).2.2.endCalls ∧
    (Discard w σ).2.2.storage.valuesMap w.hash = none ∧
    (thenClose (Discard w σ)).2.2.storage.valuesMap w.hash = some p ∧
    (thenClose (Discard w σ)).2.2.entryAt w.hash = some { σ.heap p with IsDone := true } := by
  have e2 := Close_eq (Discard w σ).2.1 (Discard w σ).2.2 p (by rw [Discard_eq]; exact hp)
  unfold thenClose
  rw [e2]
  refine ⟨rfl, ?_, ?_, ?_, ?_⟩
  · rw [Discard_eq]; simp
  · rw [Discard_eq]; simp
  · rw [Discard_eq]; simp
  · rw [Discard_eq]; simp [World.entryAt]

/-- C9 amended, at a concrete input: a new writer for key "a". -/
theorem Close_after_Discard_witness :
    sampleWriter.1.item = some 2 ∧
    (thenClose (Discard sampleWriter.1 sampleWriter.2)).1 = none ∧
    (thenClose (Discard sampleWriter.1 sampleWriter.2)).2.2.endCalls
      = (Discard sampleWriter.1 sampleWriter.2).2.2.endCalls ∧
    (Discard sampleWriter.1 sampleWriter.2).2.2.storage.valuesMap sampleWriter.1.hash = none ∧
    (thenClose (Discard sampleWriter.1 sampleWriter.2)).2.2.storage.valuesMap sampleWriter.1.hash
      = some 2 ∧
    (thenClose (Discard sampleWriter.1 sampleWriter.2)).2.2.entryAt sampleWriter.1.hash
      = some { sampleWriter.2.heap 2 with IsDone := true } :=
  ⟨rfl, Close_after_Discard sampleWriter.1 sampleWriter.2 2 rfl⟩

/-! ## Writes after commit -/

/-- C10, as stated, fails: a `WriteHeader` and a `Write` made after `Close` change the
header and body bytes of the entry stored under the writer's fingerprint. -/
theorem write_after_Close_changes_entry :
    (Close sampleWriter.1 sampleWriter.2).2.2.entryAt sampleWriter.1.hash
      = some { ExpiresAt := 105, HeaderValue := [], BodyValue := [], Status := 200,
               IsDone := true, ModifiedAt := 100 } ∧
    (runCalls [Call.writeHeader [7], Call.write [8, 9]] (Close sampleWriter.1 sampleWriter.2).2).map
        (fun s => s.2.entryAt sampleWriter.1.hash)
      = some (some { ExpiresAt := 105, HeaderValue := [7], BodyValue := [8, 9], Status := 200,
                     IsDone := true, ModifiedAt := 100 }) := by
  decide

/-- C10, amended. After `Close` has published the entry of a writer with a non-nil item at
`p`, any later `WriteHeader` and `Write` calls on that writer all return and append their
payloads, in order, to the header and body bytes of the entry stored under the writer's
fingerprint: the bytes present at commit stay as the beginning of the stored bytes, and
the other fields of the entry stay as committed. -/
theorem write_after_Close_appends (w : MemoryWriter) (σ : World) (p : Nat)
    (cs : List Call) (hp : w.item = some p) (hcs : ∀ c ∈ cs, c.isWrite = true) :
    (Close w σ).2.2.entryAt w.hash = some { σ.heap p with IsDone := true } ∧
    ∃ s1, runCalls cs (Close w σ).2 = some s1 ∧
      s1.2.entryAt w.hash = some
        { σ.heap p with
          IsDone := true,
          HeaderValue := (σ.heap p).HeaderValue ++ headerBytes cs,
          BodyValue := (σ.heap p).BodyValue ++ bodyBytes cs } := by
  have e1 := Close_eq w σ p hp
  obtain ⟨hs, bs, ik, hrun⟩ :=
    runCalls_nonEnd_shape cs (Close w σ).2 p (fun c hc => isEnd_of_isWrite c (hcs c hc))
      (by rw [e1]; exact hp)
  refine ⟨?_, _, hrun, ?_⟩
  · rw [e1]; simp [World.entryAt]
  · rw [e1]; simp [World.entryAt, written]

/-- C10 amended, at a concrete input: a new writer for key "a", closed and written to. -/
theorem write_after_Close_appends_witness :
    sampleWriter.1.item = some 2 ∧
    (Close sampleWriter.1 sampleWriter.2).2.2.entryAt sampleWriter.1.hash
      = some { sampleWriter.2.heap 2 with IsDone := true } ∧
    ∃ s1, runCalls [Call.writeHeader [7], Call.write [8, 9]]
        (Close sampleWriter.1 sampleWriter.2).2 = some s1 ∧
      s1.2.entryAt sampleWriter.1.hash = some
        { sampleWriter.2.heap 2 with
          IsDone := true,
          HeaderValue := (sampleWriter.2.heap 2).HeaderValue
            ++ headerBytes [Call.writeHeader [7], Call.write [8, 9]],
          BodyValue := (sampleWriter.2.heap 2).BodyValue
            ++ bodyBytes [Call.writeHeader [7], Call.write [8, 9]] } :=
  ⟨rfl, write_after_Close_appends sampleWriter.1 sampleWriter.2 2
    [Call.writeHeader [7], Call.write [8, 9]] rfl (by decide)⟩

/-! ## Before commit -/

/-- C12. Making a writer with `NewMemoryWriter` and then calling `WriteHeader`, `Write`
(an oversize one included) or `WriteAt` any number of times leaves the store's mapping
exactly as it was: all the calls return, the mapping holds the same address at every
fingerprint, and, in a world whose mapped addresses are all allocated, a lookup at any
fingerprint sees the entry that was there before the writer existed. -/
theorem entry_published_only_on_Close (Sum64String : String → Nat) (now : Int) (σ : World)
    (key : String) (expiredAt status : Int) (isDirty : Bool) (maxSize : Int) (endFunc : Nat)
    (cs : List Call) (hcs : ∀ c ∈ cs, c.isEnd = false) :
    (NewMemoryWriter Sum64String now σ key expiredAt status isDirty maxSize endFunc).2.storage.valuesMap
      = σ.storage.valuesMap ∧
    ∃ s1,
      runCalls cs (NewMemoryWriter Sum64String now σ key expiredAt status isDirty maxSize endFunc)
        = some s1 ∧
      s1.2.storage.valuesMap = σ.storage.valuesMap ∧
      (σ.Allocated → ∀ h, s1.2.entryAt h = σ.entryAt h) := by
  obtain ⟨hs, bs, ik, hrun⟩ :=
    runCalls_nonEnd_shape cs
      (NewMemoryWriter Sum64String now σ key expiredAt status isDirty maxSize endFunc)
      σ.nextAddr hcs rfl
  refine ⟨rfl, _, hrun, rfl, ?_⟩
  intro hal h
  simp only [World.entryAt, written, NewMemoryWriter]
  cases hq : σ.storage.valuesMap h with
  | none => rfl
  | some q =>
    have hne : q ≠ σ.nextAddr := Nat.ne_of_lt (hal h q hq)
    simp [Function.update_noteq hne]

theorem sampleWorld_Allocated : sampleWorld.Allocated := by
  intro h p hh
  simp only [sampleWorld] at hh ⊢
  split_ifs at hh <;> simp at hh <;> omega

/-- C12 at a concrete input: a writer for key "a", whose fingerprint already has an entry,
given a header, an oversize body and a `WriteAt`. -/
theorem entry_published_only_on_Close_witness :
    ((NewMemoryWriter String.length 100 sampleWorld "a" 105 200 true 10 7).2.storage.valuesMap
      = sampleWorld.storage.valuesMap ∧
    ∃ s1,
      runCalls [Call.writeHeader [1], Call.write [1, 2, 3, 4, 5, 6, 7, 8, 9, 10, 11],
          Call.writeAt 0 []]
        (NewMemoryWriter String.length 100 sampleWorld "a" 105 200 true 10 7) = some s1 ∧
      s1.2.storage.valuesMap = sampleWorld.storage.valuesMap ∧
      (sampleWorld.Allocated → ∀ h, s1.2.entryAt h = sampleWorld.entryAt h)) ∧
    sampleWorld.Allocated :=
  ⟨entry_published_only_on_Close String.length 100 sampleWorld "a" 105 200 true 10 7
      [Call.writeHeader [1], Call.write [1, 2, 3, 4, 5, 6, 7, 8, 9, 10, 11], Call.writeAt 0 []]
      (by decide),
    sampleWorld_Allocated⟩

/-! ## Random-access writes -/

/-- C13. `WriteAt` returns the non-nil "not supported" error for every offset and every
payload, the empty payload included, and leaves the writer and the world as they were;
so a `Write`, a `WriteHeader` or a `Close` made after it returns what it would have
returned without it, and a call sequence with a `WriteAt` anywhere in it ends in the
same state as the sequence without it. -/
theorem WriteAt_not_supported (w : MemoryWriter) (σ : World) (offset : Int) (b : List Byte) :
    WriteAt w σ offset b = (some CacheError.notSupported, w, σ) ∧
    WriteAt w σ offset [] = (some CacheError.notSupported, w, σ) ∧
    (∀ data, Write (WriteAt w σ offset b).2.1 (WriteAt w σ offset b).2.2 data = Write w σ data) ∧
    (∀ data, WriteHeader (WriteAt w σ offset b).2.1 (WriteAt w σ offset b).2.2 data
      = WriteHeader w σ data) ∧
    Close (WriteAt w σ offset b).2.1 (WriteAt w σ offset b).2.2 = Close w σ ∧
    (∀ pre post s, runCalls (pre ++ Call.writeAt offset b :: post) s = runCalls (pre ++ post) s) := by
  refine ⟨rfl, rfl, fun _ => rfl, fun _ => rfl, rfl, ?_⟩
  intro pre post s
  rw [runCalls_append, runCalls_append]
  cases runCalls pre s with
  | none => rfl
  | some s1 => simp [runCalls, Call.exec, WriteAt]

/-! ## Size counters -/

/-- One call other than `Close` / `Discard`, on a writer whose item is at `p` and whose
counters are non-negative and leave room for the payload: the counters grow by exactly
the header and body payload lengths of the call. -/
theorem exec_nonEnd_sizes (c : Call) (s : MemoryWriter × World) (p : Nat)
    (hc : c.isEnd = false) (hp : s.1.item = some p)
    (hh0 : 0 ≤ s.1.headerSize) (hh1 : s.1.headerSize + (headerBytes [c]).length ≤ maxInt64)
    (hb0 : 0 ≤ s.1.bodySize) (hb1 : s.1.bodySize + (bodyBytes [c]).length ≤ maxInt64) :
    ∃ ik, c.exec s = some (written s p (s.1.headerSize + (headerBytes [c]).length)
      (s.1.bodySize + (bodyBytes [c]).length) ik (headerBytes [c]) (bodyBytes [c])) := by
  cases c with
  | writeHeader data =>
    have hw := wrapInt64_of_range (s.1.headerSize + (headerBytes [Call.writeHeader data]).length)
      (by omega) hh1
    simp only [headerBytes, List.append_nil] at hw
    exact ⟨s.2.storage.ignoreKeys,
      by simp [Call.exec, WriteHeader, hp, headerBytes, bodyBytes, written, hw]⟩
  | write data =>
    have hw := wrapInt64_of_range (s.1.bodySize + (bodyBytes [Call.write data]).length)
      (by omega) hb1
    simp only [bodyBytes, List.append_nil] at hw
    refine ⟨(if 0 < s.1.maxSize ∧ s.1.maxSize < wrapInt64 (s.1.bodySize + data.length)
        then s.2.storage.IgnoreKey s.1.key else s.2.storage).ignoreKeys, ?_⟩
    simp only [Call.exec, Write_eq s.1 s.2 data p hp, Option.map_some', written, headerBytes,
      bodyBytes, List.append_nil, List.length_nil, Nat.cast_zero, add_zero, hw]
    split_ifs <;> simp [MemoryStorage.IgnoreKey]
  | writeAt offset b =>
    exact ⟨s.2.storage.ignoreKeys,
      by simp [Call.exec, WriteAt, headerBytes, bodyBytes, written]⟩
  | close => simp [Call.isEnd] at hc
  | discard => simp [Call.isEnd] at hc

/-- Any calls other than `Close` / `Discard`, on a writer whose item is at `p` and whose
counters are non-negative and leave room for all the payloads: the counters grow by
exactly the total header and body payload lengths. -/
theorem runCalls_nonEnd_sizes (cs : List Call) (s : MemoryWriter × World) (p : Nat)
    (hcs : ∀ c ∈ cs, c.isEnd = false) (hp : s.1.item = some p)
    (hh0 : 0 ≤ s.1.headerSize) (hh1 : s.1.headerSize + (headerBytes cs).length ≤ maxInt64)
    (hb0 : 0 ≤ s.1.bodySize) (hb1 : s.1.bodySize + (bodyBytes cs).length ≤ maxInt64) :
    ∃ ik, runCalls cs s = some (written s p (s.1.headerSize + (headerBytes cs).length)
      (s.1.bodySize + (bodyBytes cs).length) ik (headerBytes cs) (bodyBytes cs)) := by
  induction cs generalizing s with
  | nil =>
    exact ⟨s.2.storage.ignoreKeys, by simp [runCalls, headerBytes, bodyBytes, written_self]⟩
  | cons c cs ih =>
    rw [headerBytes_cons c cs, List.length_append, Nat.cast_add] at hh1
    rw [bodyBytes_cons c cs, List.length_append, Nat.cast_add] at hb1
    obtain ⟨ik1, h1⟩ :=
      exec_nonEnd_sizes c s p (hcs c (List.mem_cons_self _ _)) hp hh0 (by omega) hb0 (by omega)
    obtain ⟨ik2, h2⟩ :=
      ih (written s p (s.1.headerSize + (headerBytes [c]).length)
          (s.1.bodySize + (bodyBytes [c]).length) ik1 (headerBytes [c]) (bodyBytes [c]))
        (fun d hd => hcs d (List.mem_cons_of_mem _ hd)) hp
        (by simp only [written]; omega) (by simp only [written]; omega)
        (by simp only [written]; omega) (by simp only [written]; omega)
    refine ⟨ik2, ?_⟩
    simp only [runCalls, h1, Option.some_bind, h2, written_written]
    rw [headerBytes_cons c cs, bodyBytes_cons c cs]
    simp only [written, List.length_append, Nat.cast_add, add_assoc]

theorem headerBytes_length (cs : List Call) :
    (headerBytes cs).length = (cs.map fun c => (headerBytes [c]).length).sum := by
  induction cs with
  | nil => rfl
  | cons c cs ih => rw [headerBytes_cons, List.length_append, ih]; simp

theorem bodyBytes_length (cs : List Call) :
    (bodyBytes cs).length = (cs.map fun c => (bodyBytes [c]).length).sum := by
  induction cs with
  | nil => rfl
  | cons c cs ih => rw [bodyBytes_cons, List.length_append, ih]; simp

/-- C14. A writer made by `NewMemoryWriter` is given any `WriteHeader` and `Write` calls
whose total header bytes and total body bytes each fit in an `int64`. All calls return.
Afterwards `HeaderSize()` is the sum of the lengths of the `WriteHeader` payloads and the
length of the item's header buffer, which holds those payloads in order; `BodySize()` is
the sum of the lengths of the `Write` payloads and the length of the item's body buffer.
A further `WriteHeader` returns `(len(data), nil)` whatever has been written, and the
error of a further `Write` is decided by the body bytes alone: it is `ErrEntityTooLarge`
exactly when `maxSize > 0` and the body bytes so far plus `len(data)` exceed `maxSize`. -/
theorem sizes_track_buffers (Sum64String : String → Nat) (now : Int) (σ : World)
    (key : String) (expiredAt status : Int) (isDirty : Bool) (maxSize : Int) (endFunc : Nat)
    (cs : List Call) (hcs : ∀ c ∈ cs, c.isWrite = true)
    (hH : ((headerBytes cs).length : Int) ≤ maxInt64)
    (hB : ((bodyBytes cs).length : Int) ≤ maxInt64) :
    ∃ w1 σ1,
      runCalls cs (NewMemoryWriter Sum64String now σ key expiredAt status isDirty maxSize endFunc)
        = some (w1, σ1) ∧
      HeaderSize w1 = ((cs.map fun c => (headerBytes [c]).length).sum : Nat) ∧
      (σ1.heap σ.nextAddr).HeaderValue = headerBytes cs ∧
      HeaderSize w1 = (σ1.heap σ.nextAddr).HeaderValue.length ∧
      BodySize w1 = ((cs.map fun c => (bodyBytes [c]).length).sum : Nat) ∧
      (σ1.heap σ.nextAddr).BodyValue = bodyBytes cs ∧
      BodySize w1 = (σ1.heap σ.nextAddr).BodyValue.length ∧
      (∀ data : List Byte, ∃ w2 σ2, WriteHeader w1 σ1 data = some ((data.length, none), w2, σ2)) ∧
      (∀ data : List Byte, ((bodyBytes cs).length : Int) + data.length ≤ maxInt64 →
        ∃ w2 σ2, Write w1 σ1 data = some
          ((data.length,
            if 0 < maxSize ∧ maxSize < ((bodyBytes cs).length : Int) + data.length
            then some CacheError.ErrEntityTooLarge else none), w2, σ2)) := by
  obtain ⟨ik, hrun⟩ :=
    runCalls_nonEnd_sizes cs
      (NewMemoryWriter Sum64String now σ key expiredAt status isDirty maxSize endFunc)
      σ.nextAddr (fun c hc => isEnd_of_isWrite c (hcs c hc)) rfl
      (le_refl _) (by simpa [NewMemoryWriter] using hH)
      (le_refl _) (by simpa [NewMemoryWriter] using hB)
  obtain ⟨X, hX, hrun⟩ : ∃ X, X = written _ σ.nextAddr _ _ ik _ _ ∧
      runCalls cs (NewMemoryWriter Sum64String now σ key expiredAt status isDirty maxSize endFunc)
        = some X := ⟨_, rfl, hrun⟩
  have hp : X.1.item = some σ.nextAddr := by rw [hX]; rfl
  have hm : X.1.maxSize = maxSize := by rw [hX]; rfl
  have hb : X.1.bodySize = ((bodyBytes cs).length : Int) := by
    rw [hX]; simp [written, NewMemoryWriter]
  have hh : X.1.headerSize = ((headerBytes cs).length : Int) := by
    rw [hX]; simp [written, NewMemoryWriter]
  have hbv : (X.2.heap σ.nextAddr).BodyValue = bodyBytes cs := by
    rw [hX]; simp [written, NewMemoryWriter]
  have hhv : (X.2.heap σ.nextAddr).HeaderValue = headerBytes cs := by
    rw [hX]; simp [written, NewMemoryWriter]
  refine ⟨X.1, X.2, hrun, ?_, hhv, ?_, ?_, hbv, ?_, ?_, ?_⟩
  · rw [← headerBytes_length]; exact hh
  · rw [hhv]; exact hh
  · rw [← bodyBytes_length]; exact hb
  · rw [hbv]; exact hb
  · intro data
    simp [WriteHeader, hp]
  · intro data hfit
    have hw : wrapInt64 (((bodyBytes cs).length : Int) + data.length)
        = ((bodyBytes cs).length : Int) + data.length :=
      wrapInt64_of_range _ (by omega) hfit
    have e := Write_eq X.1 X.2 data σ.nextAddr hp
    rw [hb, hm, hw] at e
    exact ⟨_, _, e⟩

/-- C14 at a concrete input: two `WriteHeader`s and two `Write`s on a new writer. -/
theorem sizes_track_buffers_witness :
    ∃ w1 σ1,
      runCalls [Call.writeHeader [1, 2], Call.write [3], Call.writeHeader [4], Call.write [5, 6]]
        sampleWriter = some (w1, σ1) ∧
      HeaderSize w1 = 3 ∧ (σ1.heap 2).HeaderValue = [1, 2, 4] ∧
      BodySize w1 = 3 ∧ (σ1.heap 2).BodyValue = [3, 5, 6] := by
  obtain ⟨w1, σ1, h1, h2, h3, _, h5, h6, _⟩ :=
    sizes_track_buffers String.length 100 sampleWorld "a" 105 200 true 10 7
      [Call.writeHeader [1, 2], Call.write [3], Call.writeHeader [4], Call.write [5, 6]]
      (by decide) (by decide) (by decide)
  exact ⟨w1, σ1, h1, h2, h3, h5, h6⟩

/-! ## Several writers -/

/-- What any call does to the heap and the mapping, for a writer whose item is at `p`:
it returns, keeps the writer's item and hash, changes only the item at `p` (as
`Call.onItem` says) and only the mapping's slot at the writer's hash (as `Call.onSlot`
says), and allocates nothing. -/
theorem exec_effect (c : Call) (w : MemoryWriter) (σ : World) (p : Nat) (hp : w.item = some p) :
    ∃ w1 σ1, c.exec (w, σ) = some (w1, σ1) ∧ w1.item = some p ∧ w1.hash = w.hash ∧
      σ1.heap = Function.update σ.heap p (c.onItem (σ.heap p)) ∧
      σ1.storage.valuesMap
        = Function.update σ.storage.valuesMap w.hash (c.onSlot p (σ.storage.valuesMap w.hash)) ∧
      σ1.nextAddr = σ.nextAddr := by
  cases c with
  | writeHeader data =>
    refine ⟨{ w with headerSize := wrapInt64 (w.headerSize + data.length) },
      { σ with
        heap := Function.update σ.heap p
          ({ σ.heap p with HeaderValue := (σ.heap p).HeaderValue ++ data } : MemoryItem) },
      by simp [Call.exec, WriteHeader, hp], hp, rfl, rfl, ?_, rfl⟩
    simp [Call.onSlot]
  | write data =>
    refine ⟨{ w with bodySize := wrapInt64 (w.bodySize + data.length) },
      { σ with
          storage :=
            if 0 < w.maxSize ∧ w.maxSize < wrapInt64 (w.bodySize + data.length)
            then σ.storage.IgnoreKey w.key else σ.storage,
          heap := Function.update σ.heap p
            ({ σ.heap p with BodyValue := (σ.heap p).BodyValue ++ data } : MemoryItem) },
      by simp only [Call.exec, Write_eq w σ data p hp, Option.map_some'], hp, rfl, rfl, ?_, rfl⟩
    simp only [Call.onSlot, Function.update_eq_self]
    split_ifs <;> rfl
  | writeAt offset b =>
    refine ⟨w, σ, rfl, hp, rfl, ?_, ?_, rfl⟩
    · simp [Call.onItem]
    · simp [Call.onSlot]
  | close =>
    refine ⟨(Close w σ).2.1, (Close w σ).2.2, rfl, ?_, ?_, ?_, ?_, ?_⟩
    all_goals rw [Close_eq w σ p hp]
    all_goals first | exact hp | rfl
  | discard =>
    refine ⟨(Discard w σ).2.1, (Discard w σ).2.2, rfl, ?_, ?_, ?_, ?_, ?_⟩
    all_goals rw [Discard_eq w σ]
    all_goals first | exact hp | rfl | simp [Call.onItem]

theorem onItem_IsDone (c : Call) (it : MemoryItem) :
    (c.onItem it).IsDone = (it.IsDone || decide (c = Call.close)) := by
  cases c <;> simp [Call.onItem]

/-- One valid event keeps the invariant, the closed set growing by the writer the event
closes. -/
theorem Event.exec_Inv (Sum64String : String → Nat) (e : Event) (S : System) (base : Nat)
    (C : Nat → Bool) (hinv : S.Inv base C) (hv : validEvents [e] S.count = true) :
    ∃ S1, e.exec Sum64String S = some S1 ∧ S1.count = e.countAfter S.count ∧
      S1.Inv base (fun i => C i || e.closes i) := by
  obtain ⟨h1, h2, h3, h4, h5⟩ := hinv
  cases e with
  | create key expiredAt status isDirty maxSize endFunc now =>
    refine ⟨_, rfl, rfl, ?_, ?_, ?_, ?_, ?_⟩
    · simp only [NewMemoryWriter, h1]; omega
    · intro i hi
      by_cases hic : i = S.count
      · subst hic
        exact ⟨_, Function.update_same _ _ _, by simp [NewMemoryWriter, h1]⟩
      · obtain ⟨w, hw, hwi⟩ := h2 i (by simp only at hi; omega)
        exact ⟨w, by simp [Function.update_noteq hic, hw], hwi⟩
    · intro i w hw
      by_cases hic : i = S.count
      · simp only; omega
      · simp only [Function.update_noteq hic] at hw
        have := h3 i w hw
        simp only; omega
    · intro h p hp
      obtain ⟨hlt, hd⟩ := h4 h p hp
      have hne : p ≠ S.world.nextAddr := by omega
      refine ⟨by simp only; omega, ?_⟩
      simp [NewMemoryWriter, Function.update_noteq hne, hd]
    · intro i hi hC
      simp only [Event.closes, Bool.or_false] at hC
      by_cases hic : i = S.count
      · subst hic
        simp [NewMemoryWriter, h1]
      · have hne : base + i ≠ S.world.nextAddr := by omega
        simp only [NewMemoryWriter, Function.update_noteq hne]
        exact h5 i (by simp only at hi; omega) hC
  | call i c =>
    have hi : i < S.count := by simpa [validEvents] using hv
    obtain ⟨w, hw, hwi⟩ := h2 i hi
    obtain ⟨w1, σ1, hex, hi1, _, hheap, hmap, hnext⟩ := exec_effect c w S.world (base + i) hwi
    refine ⟨{ writers := Function.update S.writers i (some w1), count := S.count, world := σ1 },
      by simp only [Event.exec, hw, hex, Option.map_some'], rfl, ?_, ?_, ?_, ?_, ?_⟩
    · simp only [hnext, h1]
    · intro j hj
      by_cases hji : j = i
      · subst hji
        exact ⟨w1, Function.update_same _ _ _, hi1⟩
      · obtain ⟨w', hw', hwi'⟩ := h2 j hj
        exact ⟨w', by simp [Function.update_noteq hji, hw'], hwi'⟩
    · intro j w' hw'
      by_cases hji : j = i
      · subst hji; exact hi
      · simp only [Function.update_noteq hji] at hw'
        exact h3 j w' hw'
    · intro h p hp
      simp only [hmap] at hp
      have hdone : ∀ q, (S.world.heap q).IsDone = true → (σ1.heap q).IsDone = true := by
        intro q hq
        rw [hheap]
        by_cases hqp : q = base + i
        · subst hqp
          simp [onItem_IsDone, hq]
        · simp [Function.update_noteq hqp, hq]
      by_cases hh : h = w.hash
      · subst hh
        simp only [Function.update_same] at hp
        cases c with
        | close =>
          simp only [Call.onSlot, Option.some.injEq] at hp
          subst hp
          refine ⟨by simp only; omega, ?_⟩
          simp [hheap, Call.onItem]
        | discard => simp [Call.onSlot] at hp
        | writeHeader data =>
          simp only [Call.onSlot] at hp
          exact ⟨(h4 _ p hp).1, hdone p (h4 _ p hp).2⟩
        | write data =>
          simp only [Call.onSlot] at hp
          exact ⟨(h4 _ p hp).1, hdone p (h4 _ p hp).2⟩
        | writeAt offset b =>
          simp only [Call.onSlot] at hp
          exact ⟨(h4 _ p hp).1, hdone p (h4 _ p hp).2⟩
      · simp only [Function.update_noteq hh] at hp
        exact ⟨(h4 _ p hp).1, hdone p (h4 _ p hp).2⟩
    · intro j hj hC
      simp only [Bool.or_eq_false_iff] at hC
      obtain ⟨hCj, hcl⟩ := hC
      simp only [hheap]
      by_cases hji : j = i
      · subst hji
        have hnc : c ≠ Call.close := by
          intro hc
          subst hc
          simp [Event.closes] at hcl
        simp [onItem_IsDone, hnc, h5 j hj hCj]
      · have hne : base + j ≠ base + i := by omega
        simp only [Function.update_noteq hne]
        exact h5 j hj hCj

theorem validEvents_cons (e : Event) (es : List Event) (n : Nat) :
    validEvents (e :: es) n = (validEvents [e] n && validEvents es (e.countAfter n)) := by
  cases e <;> simp [validEvents, Event.countAfter]

/-- Valid events all return and keep the invariant, the closed set growing by the writers
they close. -/
theorem runEvents_Inv (Sum64String : String → Nat) (es : List Event) (S : System) (base : Nat)
    (C : Nat → Bool) (hinv : S.Inv base C) (hv : validEvents es S.count = true) :
    ∃ S1, runEvents Sum64String es S = some S1 ∧
      S1.Inv base (fun i => C i || closedIn es i) := by
  induction es generalizing S C with
  | nil =>
    refine ⟨S, rfl, ?_⟩
    simpa [closedIn] using hinv
  | cons e es ih =>
    rw [validEvents_cons, Bool.and_eq_true] at hv
    obtain ⟨S1, hex, hcount, hinv1⟩ := Event.exec_Inv Sum64String e S base C hinv hv.1
    obtain ⟨S2, hrun, hinv2⟩ := ih S1 _ hinv1 (by rw [hcount]; exact hv.2)
    refine ⟨S2, by simp [runEvents, hex, hrun], ?_⟩
    have hfun : (fun i => C i || closedIn (e :: es) i)
        = (fun i => (C i || e.closes i) || closedIn es i) := by
      funext i
      simp [closedIn, Bool.or_assoc]
    rw [hfun]
    exact hinv2

/-- C11. Start from a store whose mapped addresses are all allocated and hold done
entries, and perform any events: `NewMemoryWriter` for any number of writers and
`WriteHeader`, `Write`, `WriteAt`, `Close` and `Discard` calls on writers made by then.
All events return. Afterwards every entry reachable through the mapping has
`IsDone = true`, and every writer on which `Close` has not been called so far has an
item with `IsDone = false`. -/
theorem mapped_entries_are_done (Sum64String : String → Nat) (σ : World) (es : List Event)
    (hal : σ.Allocated)
    (hdone : ∀ h it, σ.entryAt h = some it → it.IsDone = true)
    (hv : validEvents es 0 = true) :
    ∃ S, runEvents Sum64String es (System.start σ) = some S ∧
      (∀ h it, S.world.entryAt h = some it → it.IsDone = true) ∧
      (∀ i w, S.writers i = some w → closedIn es i = false →
        ∃ p, w.item = some p ∧ (S.world.heap p).IsDone = false) := by
  have hinv : (System.start σ).Inv σ.nextAddr (fun _ => false) := by
    refine ⟨rfl, ?_, ?_, ?_, ?_⟩
    · intro i hi; exact absurd hi (Nat.not_lt_zero _)
    · intro i w hw; simp [System.start] at hw
    · intro h p hp
      exact ⟨hal h p hp, hdone h (σ.heap p) (by simp [World.entryAt, System.start, hp] at hp ⊢; simp [hp])⟩
    · intro i hi; exact absurd hi (Nat.not_lt_zero _)
  obtain ⟨S, hrun, h1, h2, h3, h4, h5⟩ :=
    runEvents_Inv Sum64String es (System.start σ) σ.nextAddr (fun _ => false) hinv hv
  refine ⟨S, hrun, ?_, ?_⟩
  · intro h it hit
    simp only [World.entryAt] at hit
    cases hp : S.world.storage.valuesMap h with
    | none => simp [hp] at hit
    | some p =>
      simp only [hp, Option.map_some', Option.some.injEq] at hit
      rw [← hit]
      exact (h4 h p hp).2
  · intro i w hw hcl
    obtain ⟨w', hw', hwi⟩ := h2 i (h3 i w hw)
    rw [hw] at hw'
    cases hw'
    exact ⟨_, hwi, h5 i (h3 i w hw) (by simpa using hcl)⟩

/-- Interleaved calls on writers with distinct items and distinct hashes: all calls
return; each writer's item is what that writer's own calls make of it, each writer's slot
of the mapping is what that writer's own calls make of it, and nothing else in the heap
or the mapping changes. -/
theorem runEvents_calls (Sum64String : String → Nat) (es : List Event) (S : System)
    (base : Nat) (hashOf : Nat → Nat) (hown : S.Owns base hashOf)
    (hes : callsOnly S.count es = true) :
    ∃ S1, runEvents Sum64String es S = some S1 ∧
      (∀ i, i < S.count →
        S1.world.heap (base + i) = itemAfter (callsOn i es) (S.world.heap (base + i))) ∧
      (∀ q, (q < base ∨ base + S.count ≤ q) → S1.world.heap q = S.world.heap q) ∧
      (∀ i, i < S.count →
        S1.world.storage.valuesMap (hashOf i)
          = slotAfter (base + i) (callsOn i es) (S.world.storage.valuesMap (hashOf i))) ∧
      (∀ h, (∀ i, i < S.count → h ≠ hashOf i) →
        S1.world.storage.valuesMap h = S.world.storage.valuesMap h) := by
  induction es generalizing S with
  | nil =>
    exact ⟨S, rfl, fun _ _ => rfl, fun _ _ => rfl, fun _ _ => rfl, fun _ _ => rfl⟩
  | cons e es ih =>
    cases e with
    | create key expiredAt status isDirty maxSize endFunc now => simp [callsOnly] at hes
    | call j c =>
      simp only [callsOnly, Bool.and_eq_true, decide_eq_true_eq] at hes
      obtain ⟨hj, hes⟩ := hes
      obtain ⟨h2, hinj⟩ := hown
      obtain ⟨w, hw, hwi, hwh⟩ := h2 j hj
      obtain ⟨w1, σ1, hex, hi1, hh1, hheap, hmap, _⟩ := exec_effect c w S.world (base + j) hwi
      rw [hwh] at hmap
      have hown1 : System.Owns
          { writers := Function.update S.writers j (some w1), count := S.count, world := σ1 }
          base hashOf := by
        refine ⟨?_, hinj⟩
        intro i hi
        by_cases hij : i = j
        · subst hij
          exact ⟨w1, Function.update_same _ _ _, hi1, hh1.trans hwh⟩
        · obtain ⟨w', hw', hwi', hwh'⟩ := h2 i hi
          exact ⟨w', by simp [Function.update_noteq hij, hw'], hwi', hwh'⟩
      obtain ⟨S1, hrun, H1, H2, M1, M2⟩ := ih _ hown1 hes
      refine ⟨S1, by simp [runEvents, Event.exec, hw, hex, hrun], ?_, ?_, ?_, ?_⟩
      · intro i hi
        rw [H1 i hi]
        by_cases hij : i = j
        · subst hij
          simp [hheap, callsOn, itemAfter]
        · have hne : base + i ≠ base + j := by omega
          simp [hheap, callsOn, Function.update_noteq hne, Ne.symm hij]
      · intro q hq
        rw [H2 q hq]
        have hne : q ≠ base + j := by omega
        simp [hheap, Function.update_noteq hne]
      · intro i hi
        rw [M1 i hi]
        by_cases hij : i = j
        · subst hij
          simp [hmap, hwh, callsOn, slotAfter]
        · have hne : hashOf i ≠ hashOf j := fun h => hij (hinj i j hi hj h)
          simp [hmap, hwh, callsOn, Function.update_noteq hne, Ne.symm hij]
      · intro h hh
        rw [M2 h hh]
        simp [hmap, hwh, Function.update_noteq (hh j hj)]

theorem itemAfter_eq (cs : List Call) (it : MemoryItem) :
    itemAfter cs it =
      { it with
        HeaderValue := it.HeaderValue ++ headerBytes cs,
        BodyValue := it.BodyValue ++ bodyBytes cs,
        IsDone := it.IsDone || decide (Call.close ∈ cs) } := by
  induction cs generalizing it with
  | nil => simp [itemAfter, headerBytes, bodyBytes]
  | cons c cs ih =>
    have hstep : itemAfter (c :: cs) it = itemAfter cs (c.onItem it) := rfl
    rw [hstep, ih]
    cases c <;> simp [Call.onItem, headerBytes, bodyBytes, List.append_assoc]

theorem slotAfter_eq (p : Nat) (cs : List Call) (v : Option Nat)
    (hcs : ∀ c ∈ cs, c.isWriteOrClose = true) :
    slotAfter p cs v = if Call.close ∈ cs then some p else v := by
  induction cs generalizing v with
  | nil => simp [slotAfter]
  | cons c cs ih =>
    have hstep : slotAfter p (c :: cs) v = slotAfter p cs (c.onSlot p v) := rfl
    rw [hstep, ih _ (fun d hd => hcs d (List.mem_cons_of_mem _ hd))]
    have hc := hcs c (List.mem_cons_self _ _)
    cases c <;> simp_all [Call.onSlot, Call.isWriteOrClose]

theorem twoWriters_run (Sum64String : String → Nat) (σ : World)
    (keyA : String) (expA stA : Int) (dirtyA : Bool) (maxA : Int) (endA : Nat) (nowA : Int)
    (keyB : String) (expB stB : Int) (dirtyB : Bool) (maxB : Int) (endB : Nat) (nowB : Int)
    (es : List Event) :
    runEvents Sum64String
        (Event.create keyA expA stA dirtyA maxA endA nowA
          :: Event.create keyB expB stB dirtyB maxB endB nowB :: es) (System.start σ)
      = runEvents Sum64String es
          (twoWriters Sum64String σ keyA expA stA dirtyA maxA endA nowA
            keyB expB stB dirtyB maxB endB nowB) := rfl

theorem twoWriters_Owns (Sum64String : String → Nat) (σ : World)
    (keyA : String) (expA stA : Int) (dirtyA : Bool) (maxA : Int) (endA : Nat) (nowA : Int)
    (keyB : String) (expB stB : Int) (dirtyB : Bool) (maxB : Int) (endB : Nat) (nowB : Int)
    (hne : calculateHash Sum64String keyA ≠ calculateHash Sum64String keyB) :
    (twoWriters Sum64String σ keyA expA stA dirtyA maxA endA nowA
      keyB expB stB dirtyB maxB endB nowB).Owns σ.nextAddr
      (fun i => if i = 0 then calculateHash Sum64String keyA else calculateHash Sum64String keyB) := by
  refine ⟨?_, ?_⟩
  · intro i hi
    have hi2 : i < 2 := hi
    interval_cases i
    · exact ⟨_, rfl, rfl, rfl⟩
    · exact ⟨_, rfl, rfl, rfl⟩
  · intro i j hi hj h
    have hi2 : i < 2 := hi
    have hj2 : j < 2 := hj
    interval_cases i <;> interval_cases j <;> simp_all

theorem sampleWorld_done : ∀ h it, sampleWorld.entryAt h = some it → it.IsDone = true := by
  intro h it hit
  simp only [World.entryAt, sampleWorld] at hit
  split_ifs at hit <;> simp at hit <;> rw [← hit]

/-- C11 at a concrete input: two writers on a store with two done entries; the first
writes and is closed, the second only writes. -/
theorem mapped_entries_are_done_witness :
    sampleWorld.Allocated ∧
    (∀ h it, sampleWorld.entryAt h = some it → it.IsDone = true) ∧
    ∃ S, runEvents String.length
        [Event.create "a" 105 200 true 10 7 100, Event.create "bb" 106 200 false 0 8 101,
          Event.call 0 (Call.write [1]), Event.call 1 (Call.writeHeader [2]),
          Event.call 0 Call.close, Event.call 1 (Call.write [3])]
        (System.start sampleWorld) = some S ∧
      (∀ h it, S.world.entryAt h = some it → it.IsDone = true) ∧
      (∀ i w, S.writers i = some w →
        closedIn [Event.create "a" 105 200 true 10 7 100, Event.create "bb" 106 200 false 0 8 101,
          Event.call 0 (Call.write [1]), Event.call 1 (Call.writeHeader [2]),
          Event.call 0 Call.close, Event.call 1 (Call.write [3])] i = false →
        ∃ p, w.item = some p ∧ (S.world.heap p).IsDone = false) :=
  ⟨sampleWorld_Allocated, sampleWorld_done,
    mapped_entries_are_done String.length sampleWorld _ sampleWorld_Allocated sampleWorld_done
      (by decide)⟩

theorem isWriteOrClose_of_mem_callsOn (es : List Event) (i : Nat) (c : Call)
    (hes : ∀ e ∈ es, e.isWriteOrClose = true) (hc : c ∈ callsOn i es) :
    c.isWriteOrClose = true := by
  induction es with
  | nil => simp [callsOn] at hc
  | cons e es ih =>
    have he := hes e (List.mem_cons_self _ _)
    have hrest := fun d hd => hes d (List.mem_cons_of_mem _ hd)
    cases e with
    | create key expiredAt status isDirty maxSize endFunc now => simp [Event.isWriteOrClose] at he
    | call j d =>
      simp only [callsOn] at hc
      split_ifs at hc
      · rcases List.mem_cons.mp hc with h | h
        · subst h; exact he
        · exact ih hrest h
      · exact ih hrest hc

/-- C15. Two writers are made for keys with distinct fingerprints, and `WriteHeader`,
`Write` and `Close` calls on them are then performed in some interleaving `es`. Take any
other interleaving `es1` that keeps each writer's own calls in the same order. Both runs
return, and they end with the same mapping, the same items and so the same entry at
every fingerprint. If a writer's calls contain a `Close`, the entry at that writer's
fingerprint is that writer's item: done, with exactly the header and body bytes of that
writer's own calls. -/
theorem distinct_writers_commute (Sum64String : String → Nat) (σ : World)
    (keyA : String) (expA stA : Int) (dirtyA : Bool) (maxA : Int) (endA : Nat) (nowA : Int)
    (keyB : String) (expB stB : Int) (dirtyB : Bool) (maxB : Int) (endB : Nat) (nowB : Int)
    (es es1 : List Event)
    (hne : calculateHash Sum64String keyA ≠ calculateHash Sum64String keyB)
    (hes : callsOnly 2 es = true) (hes1 : callsOnly 2 es1 = true)
    (hwc : ∀ e ∈ es, e.isWriteOrClose = true)
    (h0 : callsOn 0 es1 = callsOn 0 es) (h1 : callsOn 1 es1 = callsOn 1 es) :
    ∃ S S1,
      runEvents Sum64String
        (Event.create keyA expA stA dirtyA maxA endA nowA
          :: Event.create keyB expB stB dirtyB maxB endB nowB :: es) (System.start σ) = some S ∧
      runEvents Sum64String
        (Event.create keyA expA stA dirtyA maxA endA nowA
          :: Event.create keyB expB stB dirtyB maxB endB nowB :: es1) (System.start σ) = some S1 ∧
      S.world.storage.valuesMap = S1.world.storage.valuesMap ∧
      S.world.heap = S1.world.heap ∧
      (∀ h, S.world.entryAt h = S1.world.entryAt h) ∧
      (Call.close ∈ callsOn 0 es →
        S.world.entryAt (calculateHash Sum64String keyA) = some
          { ExpiresAt := expA, ModifiedAt := nowA, Status := stA, IsDone := true,
            HeaderValue := headerBytes (callsOn 0 es), BodyValue := bodyBytes (callsOn 0 es) }) ∧
      (Call.close ∈ callsOn 1 es →
        S.world.entryAt (calculateHash Sum64String keyB) = some
          { ExpiresAt := expB, ModifiedAt := nowB, Status := stB, IsDone := true,
            HeaderValue := headerBytes (callsOn 1 es), BodyValue := bodyBytes (callsOn 1 es) }) := by
  have hown := twoWriters_Owns Sum64String σ keyA expA stA dirtyA maxA endA nowA
    keyB expB stB dirtyB maxB endB nowB hne
  obtain ⟨S, hrun, H1, H2, M1, M2⟩ := runEvents_calls Sum64String es _ _ _ hown hes
  obtain ⟨S1, hrun1, H1', H2', M1', M2'⟩ := runEvents_calls Sum64String es1 _ _ _ hown hes1
  have hcnt : (twoWriters Sum64String σ keyA expA stA dirtyA maxA endA nowA
      keyB expB stB dirtyB maxB endB nowB).count = 2 := rfl
  rw [hcnt] at H1 H2 M1 M2 H1' H2' M1' M2'
  have hmap : S.world.storage.valuesMap = S1.world.storage.valuesMap := by
    funext h
    by_cases hA : h = calculateHash Sum64String keyA
    · have a := M1 0 (by omega)
      have b := M1' 0 (by omega)
      simp only [if_true] at a b
      rw [hA, a, b, h0]
    · by_cases hB : h = calculateHash Sum64String keyB
      · have a := M1 1 (by omega)
        have b := M1' 1 (by omega)
        simp only [one_ne_zero, if_false] at a b
        rw [hB, a, b, h1]
      · have hh : ∀ i, i < 2 → h ≠ (fun i => if i = 0 then calculateHash Sum64String keyA
            else calculateHash Sum64String keyB) i := by
          intro i _
          by_cases hi : i = 0 <;> simp [hi, hA, hB]
        rw [M2 h hh, M2' h hh]
  have hheap : S.world.heap = S1.world.heap := by
    funext q
    by_cases hq : q < σ.nextAddr ∨ σ.nextAddr + 2 ≤ q
    · rw [H2 q hq, H2' q hq]
    · obtain ⟨i, hi, rfl⟩ : ∃ i, i < 2 ∧ q = σ.nextAddr + i :=
        ⟨q - σ.nextAddr, by omega, by omega⟩
      rw [H1 i hi, H1' i hi]
      interval_cases i
      · rw [h0]
      · rw [h1]
  refine ⟨S, S1, (twoWriters_run ..).trans hrun, (twoWriters_run ..).trans hrun1, hmap, hheap,
    ?_, ?_, ?_⟩
  · intro h
    simp only [World.entryAt, hmap, hheap]
  · intro hcl
    have a := M1 0 (by omega)
    have b := H1 0 (by omega)
    simp only [if_true] at a
    rw [slotAfter_eq _ _ _ (fun c hc => isWriteOrClose_of_mem_callsOn es 0 c hwc hc), if_pos hcl] at a
    rw [itemAfter_eq] at b
    simp only [World.entryAt, a, Option.map_some']
    rw [b]
    simp [twoWriters, NewMemoryWriter, hcl]
  · intro hcl
    have a := M1 1 (by omega)
    have b := H1 1 (by omega)
    simp only [one_ne_zero, if_false] at a
    rw [slotAfter_eq _ _ _ (fun c hc => isWriteOrClose_of_mem_callsOn es 1 c hwc hc), if_pos hcl] at a
    rw [itemAfter_eq] at b
    simp only [World.entryAt, a, Option.map_some']
    rw [b]
    simp [twoWriters, NewMemoryWriter, hcl]

/-- C15 at a concrete input: writers for keys "a" and "bb" on a store with two entries;
one run performs all of the first writer's calls before the second writer's, the other
run alternates them and closes the second writer first. -/
theorem distinct_writers_commute_witness :
    ∃ S S1,
      runEvents String.length
        (Event.create "a" 105 200 true 10 7 100 :: Event.create "bb" 106 201 false 0 8 101
          :: [Event.call 0 (Call.writeHeader [1]), Event.call 0 (Call.write [2, 3]),
              Event.call 0 Call.close, Event.call 1 (Call.write [4]), Event.call 1 Call.close])
        (System.start sampleWorld) = some S ∧
      runEvents String.length
        (Event.create "a" 105 200 true 10 7 100 :: Event.create "bb" 106 201 false 0 8 101
          :: [Event.call 1 (Call.write [4]), Event.call 0 (Call.writeHeader [1]),
              Event.call 1 Call.close, Event.call 0 (Call.write [2, 3]), Event.call 0 Call.close])
        (System.start sampleWorld) = some S1 ∧
      (∀ h, S.world.entryAt h = S1.world.entryAt h) ∧
      S.world.entryAt 1 = some
        { ExpiresAt := 105, ModifiedAt := 100, Status := 200, IsDone := true,
          HeaderValue := [1], BodyValue := [2, 3] } ∧
      S.world.entryAt 2 = some
        { ExpiresAt := 106, ModifiedAt := 101, Status := 201, IsDone := true,
          HeaderValue := [], BodyValue := [4] } := by
  obtain ⟨S, S1, h1, h2, _, _, h5, h6, h7⟩ :=
    distinct_writers_commute String.length sampleWorld "a" 105 200 true 10 7 100
      "bb" 106 201 false 0 8 101
      [Event.call 0 (Call.writeHeader [1]), Event.call 0 (Call.write [2, 3]),
        Event.call 0 Call.close, Event.call 1 (Call.write [4]), Event.call 1 Call.close]
      [Event.call 1 (Call.write [4]), Event.call 0 (Call.writeHeader [1]),
        Event.call 1 Call.close, Event.call 0 (Call.write [2, 3]), Event.call 0 Call.close]
      (by decide) (by decide) (by decide) (by decide) (by decide) (by decide)
  exact ⟨S, S1, h1, h2, h5, h6 (by decide), h7 (by decide)⟩

end caches

namespace expires

/-! ## Maps kept as lists -/

theorem assocGet_del {β : Type} (m : List (Int × β)) (k j : Int) :
    assocGet (assocDel m k) j = if j = k then none else assocGet m j := by
  induction m with
  | nil => simp [assocDel, assocGet]
  | cons e m ih =>
    obtain ⟨a, v⟩ := e
    simp only [assocDel] at ih ⊢
    by_cases hak : a = k
    · subst hak
      simp only [List.filter_cons, ne_eq, not_true_eq_false, decide_False, Bool.false_eq_true,
        if_false, ih, assocGet]
      by_cases hja : j = a
      · simp [hja]
      · simp [hja, Ne.symm hja]
    · simp only [List.filter_cons, ne_eq, hak, not_false_eq_true, decide_True, if_true, assocGet,
        ih]
      by_cases haj : a = j
      · subst haj; simp [hak]
      · simp [haj]

theorem assocGet_append {β : Type} (m : List (Int × β)) (k j : Int) (v : β) :
    assocGet (m ++ [(k, v)]) j
      = match assocGet m j with
        | some x => some x
        | none => if k = j then some v else none := by
  induction m with
  | nil => simp [assocGet]
  | cons e m ih =>
    obtain ⟨a, w⟩ := e
    simp only [List.cons_append, assocGet]
    by_cases haj : a = j
    · simp [haj]
    · simp [haj, ih]

theorem assocGet_put {β : Type} (m : List (Int × β)) (k j : Int) (v : β) :
    assocGet (assocPut m k v) j = if j = k then some v else assocGet m j := by
  unfold assocPut
  rw [assocGet_append, assocGet_del]
  by_cases hjk : j = k
  · simp [hjk]
  · simp only [hjk, if_false, Ne.symm hjk]
    cases assocGet m j <;> rfl

theorem assocGet_mem {β : Type} (m : List (Int × β)) (j : Int) (v : β)
    (h : assocGet m j = some v) : (j, v) ∈ m := by
  induction m with
  | nil => simp [assocGet] at h
  | cons e m ih =>
    obtain ⟨a, w⟩ := e
    simp only [assocGet] at h
    by_cases haj : a = j
    · simp only [haj, if_true, Option.some.injEq] at h
      simp [haj, h]
    · simp only [haj, if_false] at h
      exact List.mem_cons_of_mem _ (ih h)

theorem assocGet_of_mem {β : Type} (m : List (Int × β)) (j : Int) (v : β)
    (hnd : (m.map Prod.fst).Nodup) (h : (j, v) ∈ m) : assocGet m j = some v := by
  induction m with
  | nil => simp at h
  | cons e m ih =>
    obtain ⟨a, w⟩ := e
    simp only [List.map_cons, List.nodup_cons] at hnd
    rcases List.mem_cons.mp h with h1 | h1
    · cases h1
      simp [assocGet]
    · have hne : a ≠ j := by
        intro haj
        apply hnd.1
        rw [haj]
        exact List.mem_map_of_mem Prod.fst h1
      simp only [assocGet, hne, if_false]
      exact ih hnd.2 h1

theorem assocGet_none_del {β : Type} (m : List (Int × β)) (j : Int)
    (h : assocGet m j = none) : assocDel m j = m := by
  induction m with
  | nil => rfl
  | cons e m ih =>
    obtain ⟨a, w⟩ := e
    simp only [assocGet] at h
    by_cases haj : a = j
    · simp [haj] at h
    · simp only [haj, if_false] at h
      simp only [assocDel] at ih ⊢
      simp only [List.filter_cons, ne_eq, haj, not_false_eq_true, decide_True, if_true]
      exact congrArg _ (ih h)

theorem nodup_del {β : Type} (m : List (Int × β)) (j : Int)
    (hnd : (m.map Prod.fst).Nodup) : ((assocDel m j).map Prod.fst).Nodup :=
  hnd.sublist ((List.filter_sublist m).map Prod.fst)

theorem not_mem_keys_del {β : Type} (m : List (Int × β)) (j : Int) :
    j ∉ (assocDel m j).map Prod.fst := by
  simp [assocDel]

theorem nodup_put {β : Type} (m : List (Int × β)) (j : Int) (v : β)
    (hnd : (m.map Prod.fst).Nodup) : ((assocPut m j v).map Prod.fst).Nodup := by
  unfold assocPut
  rw [List.map_append, List.nodup_append]
  refine ⟨nodup_del m j hnd, by simp, ?_⟩
  intro a ha hb
  simp only [List.map_cons, List.map_nil, List.mem_singleton] at hb
  subst hb
  exact not_mem_keys_del m a ha

/-! ## Remove and Add keep the list well formed -/

theorem Remove_absent (l : ExpireList) (itemId : Int) (h : assocGet l.itemsMap itemId = none) :
    Remove l itemId = l := by
  simp [Remove, h]

theorem Remove_itemsMap (l : ExpireList) (itemId : Int) :
    (Remove l itemId).itemsMap = assocDel l.itemsMap itemId := by
  cases h : assocGet l.itemsMap itemId with
  | none => rw [Remove_absent l itemId h, assocGet_none_del _ _ h]
  | some t => simp [Remove, h]

theorem Remove_get (l : ExpireList) (itemId j : Int) :
    assocGet (Remove l itemId).itemsMap j
      = if j = itemId then none else assocGet l.itemsMap j := by
  rw [Remove_itemsMap, assocGet_del]

/-- The bucket index after `Remove` of an item that is present with timestamp `t` and
whose bucket holds `ids`. -/
theorem Remove_bucket_get (l : ExpireList) (itemId t s : Int) (ids : List Int)
    (h : assocGet l.itemsMap itemId = some t) (hb : assocGet l.expireMap t = some ids) :
    assocGet (Remove l itemId).expireMap s
      = if s = t then
          (if ids.filter (fun i => decide (i ≠ itemId)) = [] then none
           else some (ids.filter fun i => decide (i ≠ itemId)))
        else assocGet l.expireMap s := by
  simp only [Remove, h, hb]
  by_cases hf : ids.filter (fun i => decide (i ≠ itemId)) = []
  · simp only [hf, if_true, assocGet_del]
  · simp only [hf, if_false, assocGet_put]

theorem Remove_Inv (l : ExpireList) (itemId : Int) (hinv : l.Inv) : (Remove l itemId).Inv := by
  cases h : assocGet l.itemsMap itemId with
  | none => rw [Remove_absent l itemId h]; exact hinv
  | some t =>
    obtain ⟨h1, h2, h3, h4⟩ := hinv
    obtain ⟨ids, hb, hmem⟩ := (h3 itemId t).mp h
    have hget := fun s => Remove_bucket_get l itemId t s ids h hb
    refine ⟨?_, ?_, ?_, ?_⟩
    · rw [Remove_itemsMap]; exact nodup_del _ _ h1
    · simp only [Remove, h, hb]
      split_ifs
      · exact nodup_del _ _ h2
      · exact nodup_put _ _ _ h2
    · intro j s
      rw [Remove_get]
      unfold inBucket
      simp only [hget]
      by_cases hj : j = itemId
      · rw [if_pos hj]
        constructor
        · intro hc; cases hc
        · rintro ⟨b, hbs, hjb⟩
          exfalso
          by_cases hs : s = t
          · rw [if_pos hs] at hbs
            split_ifs at hbs
            cases hbs
            simp [hj] at hjb
          · rw [if_neg hs] at hbs
            have hjs := (h3 j s).mpr ⟨b, hbs, hjb⟩
            rw [hj, h] at hjs
            exact hs (Option.some.inj hjs).symm
      · rw [if_neg hj, h3 j s]
        unfold inBucket
        by_cases hs : s = t
        · rw [if_pos hs, hs, hb]
          have hiff : j ∈ ids.filter (fun i => decide (i ≠ itemId)) ↔ j ∈ ids := by
            simp [hj]
          constructor
          · rintro ⟨b, hbs, hjb⟩
            cases hbs
            have hjf := hiff.mpr hjb
            have hne : ids.filter (fun i => decide (i ≠ itemId)) ≠ [] :=
              List.ne_nil_of_mem hjf
            exact ⟨_, if_neg hne, hjf⟩
          · rintro ⟨b, hbs, hjb⟩
            split_ifs at hbs
            cases hbs
            exact ⟨ids, rfl, hiff.mp hjb⟩
        · rw [if_neg hs]
    · intro s b hbs
      rw [hget] at hbs
      by_cases hs : s = t
      · rw [if_pos hs] at hbs
        split_ifs at hbs with hf
        cases hbs
        exact ⟨hf, (h4 t ids hb).2.sublist (List.filter_sublist ids)⟩
      · rw [if_neg hs] at hbs
        exact h4 s b hbs

theorem Add_get (l : ExpireList) (itemId t j : Int) :
    assocGet (Add l itemId t).itemsMap j = if j = itemId then some t else assocGet l.itemsMap j := by
  simp only [Add, assocGet_put, Remove_get]
  by_cases hj : j = itemId <;> simp [hj]

theorem Add_Inv (l : ExpireList) (itemId t : Int) (hinv : l.Inv) : (Add l itemId t).Inv := by
  obtain ⟨h1, h2, h3, h4⟩ := Remove_Inv l itemId hinv
  have hnone : assocGet (Remove l itemId).itemsMap itemId = none := by
    rw [Remove_get]; simp
  have hnot : ∀ s, ¬ inBucket (Remove l itemId).expireMap s itemId := by
    intro s hs
    have := (h3 itemId s).mpr hs
    rw [hnone] at this
    cases this
  have hold : ∀ j, j ∈ (assocGet (Remove l itemId).expireMap t).getD [] ↔
      inBucket (Remove l itemId).expireMap t j := by
    intro j
    unfold inBucket
    cases assocGet (Remove l itemId).expireMap t with
    | none => simp
    | some b => simp
  refine ⟨nodup_put _ _ _ h1, nodup_put _ _ _ h2, ?_, ?_⟩
  · intro j s
    unfold inBucket
    simp only [Add, assocGet_put]
    by_cases hj : j = itemId
    · rw [if_pos hj]
      constructor
      · intro hts
        cases hts
        exact ⟨_, if_pos rfl, by simp [hj]⟩
      · rintro ⟨b, hbs, hjb⟩
        by_cases hs : s = t
        · rw [hs]
        · rw [if_neg hs] at hbs
          rw [hj] at hjb
          exact absurd ⟨b, hbs, hjb⟩ (hnot s)
    · rw [if_neg hj, h3 j s]
      unfold inBucket
      by_cases hs : s = t
      · rw [if_pos hs, hs]
        constructor
        · intro hin
          exact ⟨_, rfl, List.mem_append_left _ ((hold j).mpr hin)⟩
        · rintro ⟨b, hbs, hjb⟩
          cases hbs
          rcases List.mem_append.mp hjb with hm | hm
          · exact (hold j).mp hm
          · exact absurd (List.mem_singleton.mp hm) hj
      · rw [if_neg hs]
  · intro s b hbs
    simp only [Add, assocGet_put] at hbs
    by_cases hs : s = t
    · rw [if_pos hs] at hbs
      cases hbs
      refine ⟨by simp, ?_⟩
      rw [List.nodup_append]
      refine ⟨?_, by simp, ?_⟩
      · cases hg : assocGet (Remove l itemId).expireMap t with
        | none => simp
        | some b => simpa using (h4 t b hg).2
      · intro a ha hb
        rw [List.mem_singleton.mp hb] at ha
        exact hnot t ((hold itemId).mp ha)
    · rw [if_neg hs] at hbs
      exact h4 s b hbs

theorem NewList_Inv : NewList.Inv := by
  refine ⟨by simp [NewList], by simp [NewList], ?_, ?_⟩
  · intro j s
    simp [NewList, assocGet, inBucket]
  · intro s b h
    simp [NewList, assocGet] at h

theorem addAll_Inv (adds : List (Int × Int)) (l : ExpireList) (hinv : l.Inv) :
    (addAll l adds).Inv := by
  induction adds generalizing l with
  | nil => exact hinv
  | cons a adds ih => exact ih _ (Add_Inv l a.1 a.2 hinv)

/-! ## Repeated Add of one item -/

theorem Add_NewList (itemId t : Int) :
    Add NewList itemId t = { itemsMap := [(itemId, t)], expireMap := [(t, [itemId])] } := by
  simp [Add, Remove, NewList, assocGet, assocPut, assocDel]

theorem Add_single (itemId s t : Int) :
    Add { itemsMap := [(itemId, s)], expireMap := [(s, [itemId])] } itemId t
      = { itemsMap := [(itemId, t)], expireMap := [(t, [itemId])] } := by
  simp [Add, Remove, assocGet, assocPut, assocDel]

theorem addSame_single (itemId : Int) (ts : List Int) (t : Int) (l : ExpireList)
    (hl : l = NewList ∨ ∃ s, l = { itemsMap := [(itemId, s)], expireMap := [(s, [itemId])] }) :
    addSame l itemId (ts ++ [t])
      = { itemsMap := [(itemId, t)], expireMap := [(t, [itemId])] } := by
  induction ts generalizing l with
  | nil =>
    rcases hl with h | ⟨s, h⟩
    · rw [h]; exact Add_NewList itemId t
    · rw [h]; exact Add_single itemId s t
  | cons u ts ih =>
    have hstep : addSame l itemId (u :: ts ++ [t]) = addSame (Add l itemId u) itemId (ts ++ [t]) :=
      rfl
    rw [hstep]
    apply ih
    right
    rcases hl with h | ⟨s, h⟩
    · exact ⟨u, by rw [h]; exact Add_NewList itemId u⟩
    · exact ⟨u, by rw [h]; exact Add_single itemId s u⟩

/-- C16. On an empty Expiration List, any non-empty sequence of `Add` calls for one item
id, with timestamps `ts` and then `t`, leaves exactly one entry in the primary mapping,
giving the id the last timestamp `t`, and exactly one bucket in the bucket index, the one
of `t`, holding only that id. In particular `Add(1, u+1)`, `Add(1, u+1)`, `Add(1, u+2)`
gives sizes 1 and 1 and `itemsMap[1] = u+2`. -/
theorem Add_same_id_keeps_latest (itemId : Int) (ts : List Int) (t : Int) :
    addSame NewList itemId (ts ++ [t])
      = { itemsMap := [(itemId, t)], expireMap := [(t, [itemId])] } ∧
    (addSame NewList itemId (ts ++ [t])).itemsMap.length = 1 ∧
    (addSame NewList itemId (ts ++ [t])).expireMap.length = 1 ∧
    assocGet (addSame NewList itemId (ts ++ [t])).itemsMap itemId = some t ∧
    assocGet (addSame NewList itemId (ts ++ [t])).expireMap t = some [itemId] ∧
    (∀ u : Int,
      (Add (Add (Add NewList 1 (u + 1)) 1 (u + 1)) 1 (u + 2)).itemsMap.length = 1 ∧
      (Add (Add (Add NewList 1 (u + 1)) 1 (u + 1)) 1 (u + 2)).expireMap.length = 1 ∧
      assocGet (Add (Add (Add NewList 1 (u + 1)) 1 (u + 1)) 1 (u + 2)).itemsMap 1
        = some (u + 2)) := by
  have h := addSame_single itemId ts t NewList (Or.inl rfl)
  refine ⟨h, ?_, ?_, ?_, ?_, ?_⟩
  · rw [h]; rfl
  · rw [h]; rfl
  · rw [h]; simp [assocGet]
  · rw [h]; simp [assocGet]
  · intro u
    have hu : Add (Add (Add NewList 1 (u + 1)) 1 (u + 1)) 1 (u + 2)
        = { itemsMap := [(1, u + 2)], expireMap := [(u + 2, [1])] } :=
      addSame_single 1 [u + 1, u + 1] (u + 2) NewList (Or.inl rfl)
    rw [hu]
    simp [assocGet]

/-! ## Garbage collection -/

theorem foldl_Remove_get (ids : List Int) (l : ExpireList) (j : Int) :
    assocGet (ids.foldl Remove l).itemsMap j = if j ∈ ids then none else assocGet l.itemsMap j := by
  induction ids generalizing l with
  | nil => simp
  | cons i ids ih =>
    rw [List.foldl_cons, ih, Remove_get]
    by_cases hji : j = i
    · simp [hji]
    · by_cases hjm : j ∈ ids
      · simp [hjm]
      · simp [hji, hjm]

theorem foldl_Remove_Inv (ids : List Int) (l : ExpireList) (hinv : l.Inv) :
    (ids.foldl Remove l).Inv := by
  induction ids generalizing l with
  | nil => exact hinv
  | cons i ids ih => exact ih _ (Remove_Inv l i hinv)

theorem mem_expiredIds (l : ExpireList) (now itemId : Int)
    (hnd : (l.itemsMap.map Prod.fst).Nodup) :
    itemId ∈ expiredIds l now ↔ ∃ t, assocGet l.itemsMap itemId = some t ∧ t ≤ now := by
  unfold expiredIds
  constructor
  · intro h
    obtain ⟨e, he, hid⟩ := List.mem_map.mp h
    obtain ⟨hmem, hle⟩ := List.mem_filter.mp he
    obtain ⟨a, t⟩ := e
    simp only at hid
    subst hid
    exact ⟨t, assocGet_of_mem _ _ _ hnd hmem, by simpa using hle⟩
  · rintro ⟨t, hget, hle⟩
    exact List.mem_map.mpr ⟨(itemId, t),
      List.mem_filter.mpr ⟨assocGet_mem _ _ _ hget, by simpa using hle⟩, rfl⟩

theorem nodup_expiredIds (l : ExpireList) (now : Int)
    (hnd : (l.itemsMap.map Prod.fst).Nodup) : (expiredIds l now).Nodup :=
  hnd.sublist ((List.filter_sublist l.itemsMap).map Prod.fst)

theorem eq_nil_of_assocGet_none {β : Type} (m : List (Int × β))
    (h : ∀ j, assocGet m j = none) : m = [] := by
  cases m with
  | nil => rfl
  | cons e m =>
    obtain ⟨a, v⟩ := e
    have := h a
    simp [assocGet] at this

theorem expireMap_nil_of_itemsMap_nil (l : ExpireList) (hinv : l.Inv) (h : l.itemsMap = []) :
    l.expireMap = [] := by
  obtain ⟨_, _, h3, h4⟩ := hinv
  apply eq_nil_of_assocGet_none
  intro s
  cases hb : assocGet l.expireMap s with
  | none => rfl
  | some b =>
    exfalso
    obtain ⟨hne, _⟩ := h4 s b hb
    obtain ⟨i, hi⟩ := List.exists_mem_of_ne_nil b hne
    have := (h3 i s).mpr ⟨b, hb, hi⟩
    rw [h] at this
    simp [assocGet] at this

/-- What `GC` does to a well-formed list. -/
theorem GC_spec (l : ExpireList) (now : Int) (hinv : l.Inv) :
    (GC l now).1.Inv ∧
    (GC l now).2.Nodup ∧
    (∀ itemId, itemId ∈ (GC l now).2 ↔ ∃ t, assocGet l.itemsMap itemId = some t ∧ t ≤ now) ∧
    (∀ itemId t, assocGet (GC l now).1.itemsMap itemId = some t ↔
      assocGet l.itemsMap itemId = some t ∧ now < t) ∧
    (∀ itemId t, inBucket (GC l now).1.expireMap t itemId ↔
      assocGet l.itemsMap itemId = some t ∧ now < t) := by
  have hI := foldl_Remove_Inv (expiredIds l now) l hinv
  have hmem := fun i => mem_expiredIds l now i hinv.1
  have hget : ∀ itemId t, assocGet (GC l now).1.itemsMap itemId = some t ↔
      assocGet l.itemsMap itemId = some t ∧ now < t := by
    intro i t
    simp only [GC, foldl_Remove_get]
    by_cases hi : i ∈ expiredIds l now
    · rw [if_pos hi]
      obtain ⟨u, hu, hle⟩ := (hmem i).mp hi
      constructor
      · intro hc; cases hc
      · rintro ⟨ht, hlt⟩
        rw [hu] at ht
        cases ht
        omega
    · rw [if_neg hi]
      constructor
      · intro ht
        refine ⟨ht, ?_⟩
        by_contra hle
        exact hi ((hmem i).mpr ⟨t, ht, by omega⟩)
      · exact fun h => h.1
  refine ⟨hI, nodup_expiredIds l now hinv.1, hmem, hget, ?_⟩
  intro i t
  rw [← hget]
  exact (hI.2.2.1 i t).symm

theorem addAll_three (u : Int) :
    addAll NewList [(1, u + 1), (2, u + 1), (3, u + 2)]
      = { itemsMap := [(1, u + 1), (2, u + 1), (3, u + 2)],
          expireMap := [(u + 1, [1, 2]), (u + 2, [3])] } := by
  have h1 : u + 1 ≠ u + 2 := by omega
  have h2 : u + 2 ≠ u + 1 := by omega
  simp [addAll, Add, Remove, NewList, assocGet, assocPut, assocDel, h1, h2]

theorem GC_three_first (u : Int) :
    GC { itemsMap := [(1, u + 1), (2, u + 1), (3, u + 2)],
         expireMap := [(u + 1, [1, 2]), (u + 2, [3])] } (u + 1)
      = ({ itemsMap := [(3, u + 2)], expireMap := [(u + 2, [3])] }, [1, 2]) := by
  have h1 : u + 1 ≠ u + 2 := by omega
  have h2 : u + 2 ≠ u + 1 := by omega
  have h3 : ¬ (u + 2 ≤ u + 1) := by omega
  simp [GC, expiredIds, Remove, assocGet, assocPut, assocDel, h1, h2, h3, List.filter_cons]

theorem GC_three_second (u : Int) :
    GC { itemsMap := [(3, u + 2)], expireMap := [(u + 2, [3])] } (u + 2) = (NewList, [3]) := by
  simp [GC, expiredIds, Remove, assocGet, assocPut, assocDel, NewList, List.filter_cons]

/-- C17. Take the Expiration List built by any sequence of `Add` calls and any `now`.
`GC(now, cb)` invokes `cb` at most once per id, and exactly for the ids whose stored
`expireAt <= now`. Afterwards the primary mapping gives an id the timestamp `t` exactly
when it did before and `now < t`, and the bucket of `t` holds an id under the same
condition. With `now` below every stored expiry `GC` invokes nothing and returns the list
as it was; with every stored expiry at most `now` the list ends empty. For the items
`{1: u+1, 2: u+1, 3: u+2}`, `GC(u+1)` evicts 1 and 2 and leaves `{3: u+2}`, and a
following `GC(u+2)` evicts 3. -/
theorem GC_evicts_exactly_expired (adds : List (Int × Int)) (now : Int) :
    (GC (addAll NewList adds) now).2.Nodup ∧
    (∀ itemId, itemId ∈ (GC (addAll NewList adds) now).2 ↔
      ∃ t, assocGet (addAll NewList adds).itemsMap itemId = some t ∧ t ≤ now) ∧
    (∀ itemId, (GC (addAll NewList adds) now).2.count itemId ≤ 1) ∧
    (∀ itemId t, assocGet (addAll NewList adds).itemsMap itemId = some t → t ≤ now →
      (GC (addAll NewList adds) now).2.count itemId = 1) ∧
    (∀ itemId t, assocGet (GC (addAll NewList adds) now).1.itemsMap itemId = some t ↔
      assocGet (addAll NewList adds).itemsMap itemId = some t ∧ now < t) ∧
    (∀ itemId t, inBucket (GC (addAll NewList adds) now).1.expireMap t itemId ↔
      assocGet (addAll NewList adds).itemsMap itemId = some t ∧ now < t) ∧
    ((∀ itemId t, assocGet (addAll NewList adds).itemsMap itemId = some t → now < t) →
      GC (addAll NewList adds) now = (addAll NewList adds, [])) ∧
    ((∀ itemId t, assocGet (addAll NewList adds).itemsMap itemId = some t → t ≤ now) →
      (GC (addAll NewList adds) now).1 = NewList) ∧
    (∀ u : Int,
      GC (addAll NewList [(1, u + 1), (2, u + 1), (3, u + 2)]) (u + 1)
        = ({ itemsMap := [(3, u + 2)], expireMap := [(u + 2, [3])] }, [1, 2]) ∧
      GC (GC (addAll NewList [(1, u + 1), (2, u + 1), (3, u + 2)]) (u + 1)).1 (u + 2)
        = (NewList, [3])) := by
  have hinv : (addAll NewList adds).Inv := addAll_Inv adds NewList NewList_Inv
  obtain ⟨hI, hnd, hmem, hget, hbucket⟩ := GC_spec (addAll NewList adds) now hinv
  refine ⟨hnd, hmem, ?_, ?_, hget, hbucket, ?_, ?_, ?_⟩
  · intro i
    exact List.nodup_iff_count_le_one.mp hnd i
  · intro i t ht hle
    exact List.count_eq_one_of_mem hnd ((hmem i).mpr ⟨t, ht, hle⟩)
  · intro hall
    have hnil : expiredIds (addAll NewList adds) now = [] := by
      apply List.eq_nil_iff_forall_not_mem.mpr
      intro i hi
      obtain ⟨t, ht, hle⟩ := (mem_expiredIds _ now i hinv.1).mp hi
      have := hall i t ht
      omega
    simp [GC, hnil]
  · intro hall
    have hitems : (GC (addAll NewList adds) now).1.itemsMap = [] := by
      apply eq_nil_of_assocGet_none
      intro j
      cases hj : assocGet (GC (addAll NewList adds) now).1.itemsMap j with
      | none => rfl
      | some t =>
        exfalso
        obtain ⟨ht, hlt⟩ := (hget j t).mp hj
        have := hall j t ht
        omega
    have hexp := expireMap_nil_of_itemsMap_nil _ hI hitems
    cases hres : (GC (addAll NewList adds) now).1 with
    | mk im em =>
      rw [hres] at hitems hexp
      simp only at hitems hexp
      rw [hitems, hexp]
      rfl
  · intro u
    rw [addAll_three, GC_three_first]
    exact ⟨rfl, GC_three_second u⟩

/-! ## Remove -/

/-- C18. `Remove(id)` on any Expiration List takes `id` out of the primary mapping and
out of the bucket of its timestamp, leaves every other id in the primary mapping as it
was, and changes nothing when `id` is absent; a `GC` at any `now` made right after it
does not invoke the callback for `id`. On a well-formed list (every list made by
`NewList`, `Add`, `Remove` and `GC` is one) `id` is then in no bucket at all and the
list stays well formed. -/
theorem Remove_then_GC_skips (l : ExpireList) (itemId : Int) :
    assocGet (Remove l itemId).itemsMap itemId = none ∧
    (∀ t, assocGet l.itemsMap itemId = some t → ¬ inBucket (Remove l itemId).expireMap t itemId) ∧
    (∀ j, j ≠ itemId → assocGet (Remove l itemId).itemsMap j = assocGet l.itemsMap j) ∧
    (assocGet l.itemsMap itemId = none → Remove l itemId = l) ∧
    (∀ now, itemId ∉ (GC (Remove l itemId) now).2) ∧
    (l.Inv → (Remove l itemId).Inv ∧ ∀ t, ¬ inBucket (Remove l itemId).expireMap t itemId) := by
  refine ⟨?_, ?_, ?_, Remove_absent l itemId, ?_, ?_⟩
  · rw [Remove_get]; simp
  · intro t ht
    rintro ⟨b, hb, hmem⟩
    cases hg : assocGet l.expireMap t with
    | none =>
      simp only [Remove, ht, hg] at hb
      cases hb
    | some ids =>
      rw [Remove_bucket_get l itemId t t ids ht hg, if_pos rfl] at hb
      split_ifs at hb
      cases hb
      simp at hmem
  · intro j hj
    rw [Remove_get, if_neg hj]
  · intro now hmem
    simp only [GC, expiredIds] at hmem
    obtain ⟨e, he, hid⟩ := List.mem_map.mp hmem
    have hin := (List.mem_filter.mp he).1
    rw [Remove_itemsMap] at hin
    have := (List.mem_filter.mp hin).2
    simp [hid] at this
  · intro hinv
    have hI := Remove_Inv l itemId hinv
    refine ⟨hI, ?_⟩
    intro t hb
    have := (hI.2.2.1 itemId t).mpr hb
    rw [Remove_get] at this
    simp at this

end expires

namespace nodes

/-- One iteration of the loop when the attempt fails and every origin has an address: the
loop goes on with one iteration less, in the world after the attempt. -/
theorem connectLoop_fail {Config Origin Conn Env : Type}
    (NextOrigin : Config → Env → Option Origin × Env)
    (OriginConnect : Origin → String → Env → (Conn × Option String) × Env)
    (Addr : Origin → Option (String × String)) (cfg : Config) (remoteAddr : String)
    (fuel : Nat) (conn : Conn) (err : Option String) (env : Env) (n : Nat) (logs : List String)
    (hAddr : ∀ o, Addr o ≠ none)
    (h : (attempt NextOrigin OriginConnect cfg remoteAddr env).1 = none) :
    ∃ conn1 err1 logs1,
      connectLoop NextOrigin OriginConnect Addr cfg remoteAddr (fuel + 1) conn err env n logs
        = connectLoop NextOrigin OriginConnect Addr cfg remoteAddr fuel conn1 err1
            (attempt NextOrigin OriginConnect cfg remoteAddr env).2 (n + 1) logs1 := by
  unfold attempt at h ⊢
  rw [connectLoop]
  rcases hN : NextOrigin cfg env with ⟨_ | origin, env1⟩
  · exact ⟨conn, err, logs, by simp⟩
  · rcases hC : OriginConnect origin remoteAddr env1 with ⟨⟨conn1, _ | e⟩, env2⟩
    · simp [hN, hC] at h
    · rcases hA : Addr origin with _ | ⟨host, portRange⟩
      · exact absurd hA (hAddr origin)
      · exact ⟨conn1, some e,
          logs ++ ["unable to connect origin: " ++ host ++ ":" ++ portRange ++ ": " ++ e],
          by simp [hC, hA]⟩

/-- One iteration of the loop when the attempt succeeds: the loop returns the attempt's
connection with a nil error. -/
theorem connectLoop_success {Config Origin Conn Env : Type}
    (NextOrigin : Config → Env → Option Origin × Env)
    (OriginConnect : Origin → String → Env → (Conn × Option String) × Env)
    (Addr : Origin → Option (String × String)) (cfg : Config) (remoteAddr : String)
    (fuel : Nat) (conn : Conn) (err : Option String) (env : Env) (n : Nat) (logs : List String)
    (c : Conn) (h : (attempt NextOrigin OriginConnect cfg remoteAddr env).1 = some c) :
    connectLoop NextOrigin OriginConnect Addr cfg remoteAddr (fuel + 1) conn err env n logs
      = some { conn := c, err := none,
               env := (attempt NextOrigin OriginConnect cfg remoteAddr env).2,
               attempts := n + 1, logs := logs } := by
  unfold attempt at h ⊢
  rw [connectLoop]
  rcases hN : NextOrigin cfg env with ⟨_ | origin, env1⟩
  · simp [hN] at h
  · rcases hC : OriginConnect origin remoteAddr env1 with ⟨⟨conn1, _ | e⟩, env2⟩
    · simp only [hN, hC, Option.some.injEq] at h
      simp [hC, h]
    · simp [hN, hC] at h

/-- One iteration of the loop when the connect fails on an origin whose `Addr` is nil: the
log line panics. -/
theorem connectLoop_panic {Config Origin Conn Env : Type}
    (NextOrigin : Config → Env → Option Origin × Env)
    (OriginConnect : Origin → String → Env → (Conn × Option String) × Env)
    (Addr : Origin → Option (String × String)) (cfg : Config) (remoteAddr : String)
    (fuel : Nat) (conn : Conn) (err : Option String) (env : Env) (n : Nat) (logs : List String)
    (origin : Origin) (env1 env2 : Env) (conn1 : Conn) (e : String)
    (hN : NextOrigin cfg env = (some origin, env1))
    (hC : OriginConnect origin remoteAddr env1 = ((conn1, some e), env2))
    (hA : Addr origin = none) :
    connectLoop NextOrigin OriginConnect Addr cfg remoteAddr (fuel + 1) conn err env n logs
      = none := by
  rw [connectLoop]
  simp [hN, hC, hA]

/-- When every origin has an address, the loop with `fuel` iterations left returns: the
connection of the first of the next `fuel` attempts that succeeds, with a nil error, or
the error "no origin can be used" when none of them succeeds. -/
theorem connectLoop_spec {Config Origin Conn Env : Type}
    (NextOrigin : Config → Env → Option Origin × Env)
    (OriginConnect : Origin → String → Env → (Conn × Option String) × Env)
    (Addr : Origin → Option (String × String)) (cfg : Config) (remoteAddr : String)
    (hAddr : ∀ o, Addr o ≠ none)
    (fuel : Nat) (conn : Conn) (err : Option String) (env : Env) (n : Nat) (logs : List String) :
    ∃ r, connectLoop NextOrigin OriginConnect Addr cfg remoteAddr fuel conn err env n logs
        = some r ∧
      (∀ k c, k < fuel →
        attemptAt NextOrigin OriginConnect cfg remoteAddr k env = some c →
        (∀ j, j < k → attemptAt NextOrigin OriginConnect cfg remoteAddr j env = none) →
        r.conn = c ∧ r.err = none ∧ r.attempts = n + k + 1 ∧
        r.env = envAfter NextOrigin OriginConnect cfg remoteAddr (k + 1) env) ∧
      ((∀ k, k < fuel → attemptAt NextOrigin OriginConnect cfg remoteAddr k env = none) →
        r.err = some "no origin can be used" ∧ r.attempts = n + fuel ∧
        r.env = envAfter NextOrigin OriginConnect cfg remoteAddr fuel env) := by
  induction fuel generalizing conn err env n logs with
  | zero =>
    exact ⟨_, rfl, fun k c hk => absurd hk (Nat.not_lt_zero k), fun _ => ⟨rfl, rfl, rfl⟩⟩
  | succ fuel ih =>
    cases h0 : (attempt NextOrigin OriginConnect cfg remoteAddr env).1 with
    | some c0 =>
      have hs := connectLoop_success NextOrigin OriginConnect Addr cfg remoteAddr fuel conn err
        env n logs c0 h0
      refine ⟨_, hs, ?_, ?_⟩
      · intro k c hk hc hprev
        cases k with
        | zero =>
          have hc' : (attempt NextOrigin OriginConnect cfg remoteAddr env).1 = some c := hc
          rw [h0] at hc'
          cases hc'
          exact ⟨rfl, rfl, rfl, rfl⟩
        | succ k =>
          have h00 : (attempt NextOrigin OriginConnect cfg remoteAddr env).1 = none :=
            hprev 0 (Nat.succ_pos k)
          rw [h0] at h00
          cases h00
      · intro hall
        have h00 : (attempt NextOrigin OriginConnect cfg remoteAddr env).1 = none :=
          hall 0 (Nat.succ_pos fuel)
        rw [h0] at h00
        cases h00
    | none =>
      obtain ⟨conn1, err1, logs1, hf⟩ := connectLoop_fail NextOrigin OriginConnect Addr cfg
        remoteAddr fuel conn err env n logs hAddr h0
      obtain ⟨r, hr, ih1, ih2⟩ := ih conn1 err1
        (attempt NextOrigin OriginConnect cfg remoteAddr env).2 (n + 1) logs1
      refine ⟨r, hf.trans hr, ?_, ?_⟩
      · intro k c hk hc hprev
        cases k with
        | zero =>
          have hc' : (attempt NextOrigin OriginConnect cfg remoteAddr env).1 = some c := hc
          rw [h0] at hc'
          cases hc'
        | succ k =>
          obtain ⟨a, b, c1, d⟩ := ih1 k c (Nat.lt_of_succ_lt_succ hk) hc
            (fun j hj => hprev (j + 1) (Nat.succ_lt_succ hj))
          exact ⟨a, b, by rw [c1]; omega, d⟩
      · intro hall
        obtain ⟨a, b, c1⟩ := ih2 (fun k hk => hall (k + 1) (Nat.succ_lt_succ hk))
        exact ⟨a, by rw [b]; omega, c1⟩

/-- What `connectOrigin` does when every origin has an address. On a nil config it
returns the error "no reverse proxy config" without calling `NextOrigin`. On a non-nil
config it returns after at most 3 `NextOrigin` calls; when attempt number `k + 1` (of the
3) is the first whose origin is non-nil and whose connect succeeds, it returns that
attempt's connection with a nil error after `k + 1` attempts; and it returns the error
"no origin can be used" exactly when none of the 3 attempts succeeds, then after 3
attempts, which is so in particular when `NextOrigin` always returns nil. -/
theorem connectOrigin_retries {Config Origin Conn Env : Type}
    (NextOrigin : Config → Env → Option Origin × Env)
    (OriginConnect : Origin → String → Env → (Conn × Option String) × Env)
    (Addr : Origin → Option (String × String)) (nilConn : Conn) (cfg : Config)
    (remoteAddr : String) (env : Env) (hAddr : ∀ o, Addr o ≠ none) :
    connectOrigin NextOrigin OriginConnect Addr nilConn none remoteAddr env
      = some { conn := nilConn, err := some "no reverse proxy config", env := env,
               attempts := 0, logs := [] } ∧
    ∃ r, connectOrigin NextOrigin OriginConnect Addr nilConn (some cfg) remoteAddr env = some r ∧
      r.attempts ≤ 3 ∧
      (∀ k c, k < 3 →
        attemptAt NextOrigin OriginConnect cfg remoteAddr k env = some c →
        (∀ j, j < k → attemptAt NextOrigin OriginConnect cfg remoteAddr j env = none) →
        r.conn = c ∧ r.err = none ∧ r.attempts = k + 1 ∧
        r.env = envAfter NextOrigin OriginConnect cfg remoteAddr (k + 1) env) ∧
      (r.err = some "no origin can be used" ↔
        ∀ k, k < 3 → attemptAt NextOrigin OriginConnect cfg remoteAddr k env = none) ∧
      ((∀ k, k < 3 → attemptAt NextOrigin OriginConnect cfg remoteAddr k env = none) →
        r.attempts = 3 ∧ r.env = envAfter NextOrigin OriginConnect cfg remoteAddr 3 env) ∧
      ((∀ e, (NextOrigin cfg e).1 = none) → r.err = some "no origin can be used") := by
  obtain ⟨r, hr, hfirst, hnone⟩ := connectLoop_spec NextOrigin OriginConnect Addr cfg remoteAddr
    hAddr 3 nilConn none env 0 []
  have hcases :
      (∃ k c, k < 3 ∧ attemptAt NextOrigin OriginConnect cfg remoteAddr k env = some c ∧
        ∀ j, j < k → attemptAt NextOrigin OriginConnect cfg remoteAddr j env = none) ∨
      (∀ k, k < 3 → attemptAt NextOrigin OriginConnect cfg remoteAddr k env = none) := by
    cases h0 : attemptAt NextOrigin OriginConnect cfg remoteAddr 0 env with
    | some c => exact Or.inl ⟨0, c, by omega, h0, fun j hj => absurd hj (Nat.not_lt_zero j)⟩
    | none =>
      cases h1 : attemptAt NextOrigin OriginConnect cfg remoteAddr 1 env with
      | some c =>
        refine Or.inl ⟨1, c, by omega, h1, fun j hj => ?_⟩
        have : j = 0 := by omega
        rw [this]; exact h0
      | none =>
        cases h2 : attemptAt NextOrigin OriginConnect cfg remoteAddr 2 env with
        | some c =>
          refine Or.inl ⟨2, c, by omega, h2, fun j hj => ?_⟩
          have : j = 0 ∨ j = 1 := by omega
          rcases this with h | h <;> rw [h] <;> assumption
        | none =>
          refine Or.inr fun k hk => ?_
          have : k = 0 ∨ k = 1 ∨ k = 2 := by omega
          rcases this with h | h | h <;> rw [h] <;> assumption
  refine ⟨rfl, r, hr, ?_, ?_, ?_, ?_, ?_⟩
  · rcases hcases with ⟨k, c, hk, hc, hprev⟩ | hall
    · rw [(hfirst k c hk hc hprev).2.2.1]; omega
    · rw [(hnone hall).2.1]
  · intro k c hk hc hprev
    obtain ⟨a, b, c1, d⟩ := hfirst k c hk hc hprev
    exact ⟨a, b, by rw [c1]; omega, d⟩
  · constructor
    · intro herr
      rcases hcases with ⟨k, c, hk, hc, hprev⟩ | hall
      · rw [(hfirst k c hk hc hprev).2.1] at herr
        cases herr
      · exact hall
    · exact fun hall => (hnone hall).1
  · intro hall
    exact ⟨by rw [(hnone hall).2.1], (hnone hall).2.2⟩
  · intro hnil
    apply (hnone _).1
    intro k _
    unfold attemptAt attempt
    rcases hN : NextOrigin cfg (envAfter NextOrigin OriginConnect cfg remoteAddr k env)
      with ⟨_ | origin, env1⟩
    · rfl
    · have := hnil (envAfter NextOrigin OriginConnect cfg remoteAddr k env)
      rw [hN] at this
      cases this

/-- The sample oracles with every address present: the first attempt finds no origin, the
second one is refused, the third one connects to origin 2. -/
theorem connectOrigin_sample :
    (connectOrigin sampleNextOrigin sampleOriginConnect sampleAddr 0 (some ()) "client" 0).map
        (fun r => (r.conn, r.err, r.attempts)) = some (2, none, 3) ∧
    (connectOrigin sampleNextOrigin sampleOriginConnect sampleAddr 0
        (none : Option Unit) "client" 0).map (fun r => r.err)
      = some (some "no reverse proxy config") := by
  decide

/-- C19 fails on the code at this input. `NextOrigin` returns no origin, then origin 1,
then origin 2; origin 1 refuses the connection and has a nil `Addr`; origin 2 accepts.
The first two attempts fail and the third one succeeds with connection 2, so the claim
has `connectOrigin` return connection 2 with a nil error. The code panics instead: after
the refused connect it builds the log message from `origin.Addr.Host`, and `origin.Addr`
is nil. With the same origins carrying an address it returns connection 2 after 3
attempts, as the claim says. -/
theorem connectOrigin_panics_on_nil_Addr :
    attemptAt sampleNextOrigin sampleOriginConnect () "client" 0 0 = none ∧
    attemptAt sampleNextOrigin sampleOriginConnect () "client" 1 0 = none ∧
    attemptAt sampleNextOrigin sampleOriginConnect () "client" 2 0 = some 2 ∧
    sampleAddrMissing 1 = none ∧
    connectOrigin sampleNextOrigin sampleOriginConnect sampleAddrMissing 0 (some ()) "client" 0
      = none ∧
    (connectOrigin sampleNextOrigin sampleOriginConnect sampleAddr 0 (some ()) "client" 0).map
        (fun r => (r.conn, r.err, r.attempts)) = some (2, none, 3) := by
  decide

end nodes
